import Mathlib

/-
Verification of the tree-to-generic-structure conversion engine (the
"object writer"), its pretty-print text renderer, and the event
`preventDefault` guard of `EventImpl`.

The object writer and JSON renderer themselves are exercised only through
their test suites in this repository snapshot; their behaviour is modelled
below from the specification (and pinned, where the specification is
silent, by the expected outputs of the JSONWriter/MapWriter tests).
`EventImpl` is embedded directly from `src/src/dom/EventImpl.ts`.
-/

set_option autoImplicit false

/-- Canonical Value produced by the Structure Builder: a scalar string, an
ordered mapping (insertion order significant), or a sequence used to group
same-named sibling elements. -/
inductive CVal where
  | scalar (s : String)
  | mapping (entries : List (String × CVal))
  | sequence (items : List CVal)
deriving Repr

/-- Modelled from the spec: the read-only Node Model consumed by the core.
A node is tagged by one kind from the closed set {Document, Element, Text,
CDATASection, Comment, ProcessingInstruction, DocumentType}; `unknown`
stands for any node whose kind tag lies outside the closed set (the tests
create one by overriding `nodeType` with 1001). An Element owns an
insertion-ordered attribute list and an ordered child list. -/
inductive XNode where
  | document (children : List XNode)
  | element (name : String) (attrs : List (String × String)) (children : List XNode)
  | text (s : String)
  | cdata (s : String)
  | comment (s : String)
  | pi (target : String) (data : String)
  | doctype
  | unknown (code : Nat)
deriving Repr

/-- Attribute entries of an element body: each attribute `(name, value)`
becomes the entry `("@" ++ name, scalar value)`, in insertion order. -/
def attrEntries (attrs : List (String × String)) : List (String × CVal) :=
  attrs.map (fun a => ("@" ++ a.1, CVal.scalar a.2))

/-- Does the entry list already contain the key? -/
def hasKey (entries : List (String × CVal)) (k : String) : Bool :=
  entries.any (fun p => p.1 == k)

/-- Convert an existing entry for key `k` into a Sequence (wrapping a
non-Sequence first value as its sole element) and append `v` to it. Keys
and positions of all entries are preserved. -/
def appendToKey (entries : List (String × CVal)) (k : String) (v : CVal) :
    List (String × CVal) :=
  entries.map (fun p =>
    if p.1 = k then
      match p.2 with
      | CVal.sequence items => (p.1, CVal.sequence (items ++ [v]))
      | old => (p.1, CVal.sequence [old, v])
    else p)

/-- Insert the built value of an Element child: the first occurrence of a
tag name creates a new position at the end; a later occurrence of the same
name keeps the first occurrence's position and appends into a Sequence. -/
def insertElementEntry (entries : List (String × CVal)) (k : String) (v : CVal) :
    List (String × CVal) :=
  if hasKey entries k then appendToKey entries k v
  else entries ++ [(k, v)]

/-- Modelled from the spec: assembling an element body Mapping from the
already-built values of the children, processed in document order. The
`tcount` counter starts at 0 and counts only plain-Text children, which
receive keys `#1, #2, ...`; Comment, ProcessingInstruction and
CDATASection children receive the fixed labels `!`, `?`, `$`; DocumentType
children contribute nothing; Element children are grouped by tag name via
`insertElementEntry`. -/
def assemble : List (XNode × CVal) → List (String × CVal) → Nat → List (String × CVal)
  | [], entries, _ => entries
  | (XNode.text _, v) :: r, entries, tcount =>
      assemble r (entries ++ [("#" ++ Nat.repr (tcount + 1), v)]) (tcount + 1)
  | (XNode.comment _, v) :: r, entries, tcount =>
      assemble r (entries ++ [("!", v)]) tcount
  | (XNode.pi _ _, v) :: r, entries, tcount =>
      assemble r (entries ++ [("?", v)]) tcount
  | (XNode.cdata _, v) :: r, entries, tcount =>
      assemble r (entries ++ [("$", v)]) tcount
  | (XNode.doctype, _) :: r, entries, tcount =>
      assemble r entries tcount
  | (XNode.document _, _) :: r, entries, tcount =>
      assemble r entries tcount
  | (XNode.unknown _, _) :: r, entries, tcount =>
      assemble r entries tcount
  | (XNode.element nm _ _, v) :: r, entries, tcount =>
      assemble r (insertElementEntry entries nm v) tcount

mutual

/-- Modelled from the spec: `build(node) -> CanonicalValue | Error` of the
Structure Builder (the object writer is absent from this snapshot; only
its tests are present). Total for every node whose kind is in the closed
set; any node of an unrecognized kind anywhere in the tree makes the whole
call fail with the single UnsupportedNodeKind error. An Element with no
attributes and a sole plain-Text child collapses to that text's string;
otherwise the element body is the Mapping of its attribute entries
followed by its child entries. A Document is a transparent wrapper: its
children (DocumentType contributing nothing) are assembled into a Mapping
one level above the document element. -/
def build : XNode → Except String CVal
  | XNode.document cs =>
      match buildList cs with
      | Except.error e => Except.error e
      | Except.ok pairs => Except.ok (CVal.mapping (assemble pairs [] 0))
  | XNode.element _ attrs cs =>
      match attrs, cs with
      | [], [XNode.text s] => Except.ok (CVal.scalar s)
      | _, _ =>
          match buildList cs with
          | Except.error e => Except.error e
          | Except.ok pairs =>
              Except.ok (CVal.mapping (assemble pairs (attrEntries attrs) 0))
  | XNode.text s => Except.ok (CVal.scalar s)
  | XNode.cdata s => Except.ok (CVal.scalar s)
  | XNode.comment s => Except.ok (CVal.scalar s)
  | XNode.pi target data => Except.ok (CVal.scalar (target ++ " " ++ data))
  | XNode.doctype => Except.ok (CVal.mapping [])
  | XNode.unknown _ => Except.error "UnsupportedNodeKind"

/-- Build every node of a child list (re-checking the closed kind set at
each recursive step), pairing each child with its built value; the first
unsupported node aborts the whole call. -/
def buildList : List XNode → Except String (List (XNode × CVal))
  | [] => Except.ok []
  | c :: r =>
      match build c with
      | Except.error e => Except.error e
      | Except.ok v =>
          match buildList r with
          | Except.error e => Except.error e
          | Except.ok pairs => Except.ok ((c, v) :: pairs)

end

mutual

/-- Is any node of the tree of an unrecognized kind? -/
def containsUnknown : XNode → Bool
  | XNode.document cs => cuList cs
  | XNode.element _ _ cs => cuList cs
  | XNode.unknown _ => true
  | XNode.text _ => false
  | XNode.cdata _ => false
  | XNode.comment _ => false
  | XNode.pi _ _ => false
  | XNode.doctype => false

/-- Does any node of the forest contain an unrecognized kind? -/
def cuList : List XNode → Bool
  | [] => false
  | c :: r => containsUnknown c || cuList r

end

/-- Hexadecimal digit character (lower case) for `n < 16`. -/
def hexDigit (n : Nat) : Char :=
  if n < 10 then Char.ofNat (48 + n) else Char.ofNat (87 + n)

/-- Modelled from the spec: standard text-escaping of quote, backslash and
control characters; no other escaping is applied. -/
def escChar (c : Char) : List Char :=
  if c = '"' then ['\\', '"']
  else if c = '\\' then ['\\', '\\']
  else if c = '\n' then ['\\', 'n']
  else if c = '\r' then ['\\', 'r']
  else if c = '\t' then ['\\', 't']
  else if c.toNat < 32 then
    ['\\', 'u', '0', '0', hexDigit (c.toNat / 16), hexDigit (c.toNat % 16)]
  else [c]

/-- Escape a whole string character by character. -/
def escapeStr (s : String) : String := String.mk (s.data.map escChar).flatten

/-- A quoted, escaped string token. -/
def quoteStr (s : String) : String := "\"" ++ escapeStr s ++ "\""

mutual

/-- Total number of scalar leaves below a Canonical Value; a value with at
most one is a "leaf node" and is rendered inline by the pretty printer
(pinned by the JSONWriter tests: `{ }` and `{ "@name": "xxx" }` render on
one line while two-scalar mappings and sequences break lines). -/
def descendantCount : CVal → Nat
  | CVal.scalar _ => 1
  | CVal.mapping es => dcEntries es
  | CVal.sequence items => dcItems items

/-- Scalar-leaf count of a mapping's entry list. -/
def dcEntries : List (String × CVal) → Nat
  | [] => 0
  | e :: r => descendantCount e.2 + dcEntries r

/-- Scalar-leaf count of a sequence's item list. -/
def dcItems : List CVal → Nat
  | [] => 0
  | v :: r => descendantCount v + dcItems r

end

/-- Pretty-rendering options: `offset` is an integer added to the depth
before multiplying by `indentUnit`, the number of spaces per depth
level. -/
structure JOpts where
  offset : Int
  indentUnit : Nat

/-- A run of `n` space characters. -/
def spacesStr (n : Nat) : String := String.mk (List.replicate n ' ')

/-- Modelled from the spec: the indentation prefix of a line at nesting
depth `d` is `max(0, (d + offset)) * indentUnit` space characters; a
non-positive shifted depth yields no indentation. -/
def indentStr (o : JOpts) (d : Nat) : String :=
  if 0 < o.offset + (d : Int) then spacesStr ((o.offset + (d : Int)).toNat * o.indentUnit)
  else ""

/-- One emission step of the renderer: a verbatim fragment appended to the
current line, or a line break followed by the indentation of depth `d`. -/
inductive Seg where
  | frag (s : String)
  | brk (d : Nat)
deriving Repr

/-- A separating comma after any entry or item that is not the last. -/
def commaIf (isLast : Bool) : List Seg := if isLast then [] else [Seg.frag ","]

mutual

/-- Modelled from the spec: pretty-mode recursive descent of the text
renderer, as the sequence of emission steps. Mappings render as braces
around `"key": value` entries and Sequences as brackets around items, one
entry or item per line at depth one deeper — except that a Mapping that is
a leaf node (at most one scalar descendant) renders inline on the current
line, as pinned by the JSONWriter tests. -/
def convSegs : CVal → Nat → List Seg
  | CVal.scalar s, _ => [Seg.frag (quoteStr s)]
  | CVal.mapping es, l =>
      if descendantCount (CVal.mapping es) ≤ 1 then
        Seg.frag "\x7b" :: (convLeafEntries es l ++ [Seg.frag " \x7d"])
      else
        Seg.frag "\x7b" :: (convMlEntries es l ++ [Seg.brk l, Seg.frag "\x7d"])
  | CVal.sequence items, l =>
      Seg.frag "[" :: (convMlItems items l ++ [Seg.brk l, Seg.frag "]"])

/-- Entries of a leaf Mapping, inline: space, quoted key, colon, value,
comma between entries. -/
def convLeafEntries : List (String × CVal) → Nat → List Seg
  | [], _ => []
  | (k, v) :: r, l =>
      Seg.frag (" " ++ quoteStr k ++ ": ") ::
        (convSegs v (l + 1) ++ commaIf r.isEmpty ++ convLeafEntries r l)

/-- Entries of a non-leaf Mapping: each entry starts its own line at depth
`l + 1`. -/
def convMlEntries : List (String × CVal) → Nat → List Seg
  | [], _ => []
  | (k, v) :: r, l =>
      Seg.brk (l + 1) :: Seg.frag (quoteStr k ++ ": ") ::
        (convSegs v (l + 1) ++ commaIf r.isEmpty ++ convMlEntries r l)

/-- Items of a Sequence: each item starts its own line at depth `l + 1`. -/
def convMlItems : List CVal → Nat → List Seg
  | [], _ => []
  | v :: r, l =>
      Seg.brk (l + 1) ::
        (convSegs v (l + 1) ++ commaIf r.isEmpty ++ convMlItems r l)

end

/-- Flatten emission steps into text: a break becomes a newline followed by
the indentation of its depth. -/
def segsToString (o : JOpts) : List Seg → String
  | [] => ""
  | Seg.frag s :: r => s ++ segsToString o r
  | Seg.brk d :: r => "\n" ++ (indentStr o d ++ segsToString o r)

/-- Modelled from the spec: `render(value, options) -> string` in pretty
mode — the flattened emission steps of the value at root depth 0, the
first line indented like any other. -/
def render (v : CVal) (o : JOpts) : String :=
  indentStr o 0 ++ segsToString o (convSegs v 0)

/-- The (depth, content) records of the lines an emission sequence spans,
starting from current depth `d` and current line content `cur`; content
excludes indentation. -/
def lineRecs : Nat → String → List Seg → List (Nat × String)
  | d, cur, [] => [(d, cur)]
  | d, cur, Seg.frag s :: r => lineRecs d (cur ++ s) r
  | d, cur, Seg.brk d2 :: r => (d, cur) :: lineRecs d2 "" r

/-- The (depth, content) line records of a pretty-rendered value. -/
def renderLines (v : CVal) : List (Nat × String) := lineRecs 0 "" (convSegs v 0)

/-- Split a character list at newline characters (the list of lines of a
text, each without its terminator). -/
def splitNL : List Char → List (List Char)
  | [] => [[]]
  | c :: r =>
      let s := splitNL r
      if c = '\n' then [] :: s else (c :: s.headD []) :: s.tail

mutual

/-- Number of output lines a value's pretty rendering spans: leaf values
render inline on one line; a non-leaf Mapping or a Sequence spends one
line on each bracket and gives every entry or item its own line. -/
def lineSpan : CVal → Nat
  | CVal.scalar _ => 1
  | CVal.mapping es =>
      if descendantCount (CVal.mapping es) ≤ 1 then 1 + lsLeaf es else 2 + lsMl es
  | CVal.sequence items => 2 + lsItems items

/-- Extra lines contributed by inline (leaf) entries beyond the current
line. -/
def lsLeaf : List (String × CVal) → Nat
  | [] => 0
  | e :: r => (lineSpan e.2 - 1) + lsLeaf r

/-- Lines contributed by the entries of a non-leaf mapping. -/
def lsMl : List (String × CVal) → Nat
  | [] => 0
  | e :: r => lineSpan e.2 + lsMl r

/-- Lines contributed by the items of a sequence. -/
def lsItems : List CVal → Nat
  | [] => 0
  | v :: r => lineSpan v + lsItems r

end

/-- State of an `EventImpl` instance (`src/src/dom/EventImpl.ts`): the
protected fields of the class. Event targets are abstracted as numeric
identities. -/
structure EventState where
  eventType : String
  target : Option Nat
  relatedTarget : Option Nat
  currentTarget : Option Nat
  eventPhase : Nat
  bubbles : Bool
  cancelable : Bool
  stopPropagation : Bool
  stopImmediatePropagation : Bool
  canceled : Bool
  inPassiveListener : Bool
  composed : Bool
  initialized : Bool
  dispatch : Bool
  isTrusted : Bool
  timeStamp : Nat
deriving Repr, DecidableEq

/-- `EventImpl._setCanceled`: set the canceled flag only when the event is
cancelable and not in a passive listener. -/
def setCanceled (e : EventState) : EventState :=
  if e.cancelable && !e.inPassiveListener then { e with canceled := true } else e

/-- `EventImpl.preventDefault()`: cancels the event (if it is
cancelable). -/
def preventDefault (e : EventState) : EventState := setCanceled e

/-- The `returnValue` setter: `if (!value) EventImpl._setCanceled(this)`. -/
def setReturnValue (e : EventState) (value : Bool) : EventState :=
  if !value then setCanceled e else e

/-- The `returnValue` getter: `!this._canceled`. -/
def returnValue (e : EventState) : Bool := !e.canceled

/-- The `defaultPrevented` getter: `this._canceled`. -/
def defaultPrevented (e : EventState) : Bool := e.canceled

/-- The keys of a mapping's entry list, in order. -/
def keysOf (es : List (String × CVal)) : List String := es.map Prod.fst

/-- First value stored under a key, if any. -/
def lookupEntry : List (String × CVal) → String → Option CVal
  | [], _ => none
  | (k, v) :: r, n => if k = n then some v else lookupEntry r n

/-- Is the value a Sequence? -/
def isSeq : CVal → Bool
  | CVal.sequence _ => true
  | _ => false

/-- One grouping step on the value stored under a key: a first occurrence
stores the value directly, a later occurrence wraps/extends a Sequence. -/
def combineOne : Option CVal → CVal → Option CVal
  | none, v => some v
  | some (CVal.sequence xs), v => some (CVal.sequence (xs ++ [v]))
  | some w, v => some (CVal.sequence [w, v])

/-- First character of a string, if any. -/
def headChar (s : String) : Option Char := s.data.head?

/-- A plain (ordinary XML-style) tag name: nonempty and not beginning with
one of the generated-label lead characters `@ # ! ? $`. -/
def plainName (s : String) : Bool :=
  match s.data with
  | [] => false
  | c :: _ => !(c = '@' || c = '#' || c = '!' || c = '?' || c = '$')

/-- Every Element child of the list bears a plain tag name. -/
def plainChildren (cs : List XNode) : Bool :=
  cs.all (fun c =>
    match c with
    | XNode.element nm _ _ => plainName nm
    | _ => true)

/-- Is the node an Element with this tag name? -/
def isElemNamed (n : String) : XNode → Bool
  | XNode.element nm _ _ => nm == n
  | _ => false

/-- The Element children with this tag name, in document order. -/
def elemsNamed (n : String) (cs : List XNode) : List XNode :=
  cs.filter (isElemNamed n)

/-- Build the values of a node list (document order). -/
def listBuild : List XNode → Except String (List CVal)
  | [] => Except.ok []
  | c :: r =>
      match build c, listBuild r with
      | Except.ok v, Except.ok vs => Except.ok (v :: vs)
      | Except.error e, _ => Except.error e
      | _, Except.error e => Except.error e

/-- Number of plain-Text children in the list. -/
def countTexts : List XNode → Nat
  | [] => 0
  | XNode.text _ :: r => countTexts r + 1
  | _ :: r => countTexts r

/-- The new keys a child list appends to a mapping, given the keys already
seen and the current text counter: Text children append `#<counter>`,
Comment/PI/CDATA their fixed labels, and an Element child appends its tag
name exactly at its first occurrence (a name already seen keeps its
original position). -/
def newKeys : List XNode → List String → Nat → List String
  | [], _, _ => []
  | XNode.text _ :: r, seen, t =>
      ("#" ++ Nat.repr (t + 1)) :: newKeys r (seen ++ ["#" ++ Nat.repr (t + 1)]) (t + 1)
  | XNode.comment _ :: r, seen, t => "!" :: newKeys r (seen ++ ["!"]) t
  | XNode.pi _ _ :: r, seen, t => "?" :: newKeys r (seen ++ ["?"]) t
  | XNode.cdata _ :: r, seen, t => "$" :: newKeys r (seen ++ ["$"]) t
  | XNode.doctype :: r, seen, t => newKeys r seen t
  | XNode.document _ :: r, seen, t => newKeys r seen t
  | XNode.unknown _ :: r, seen, t => newKeys r seen t
  | XNode.element nm _ _ :: r, seen, t =>
      if nm ∈ seen then newKeys r seen t else nm :: newKeys r (seen ++ [nm]) t

theorem data_append (a b : String) : (a ++ b).data = a.data ++ b.data := rfl

theorem hasKey_iff_mem_keysOf (es : List (String × CVal)) (n : String) :
    hasKey es n = true ↔ n ∈ keysOf es := by
  induction es with
  | nil => simp [hasKey, keysOf]
  | cons e r ih =>
      obtain ⟨k0, v0⟩ := e
      simp only [hasKey, List.any_cons, Bool.or_eq_true, beq_iff_eq, keysOf,
        List.map_cons, List.mem_cons] at ih ⊢
      constructor
      · rintro (h | h)
        · exact Or.inl h.symm
        · exact Or.inr (ih.mp h)
      · rintro (h | h)
        · exact Or.inl h.symm
        · exact Or.inr (ih.mpr h)

theorem keysOf_append (a b : List (String × CVal)) :
    keysOf (a ++ b) = keysOf a ++ keysOf b := by
  simp [keysOf]

theorem keysOf_appendToKey (es : List (String × CVal)) (k : String) (v : CVal) :
    keysOf (appendToKey es k v) = keysOf es := by
  induction es with
  | nil => rfl
  | cons e r ih =>
      obtain ⟨k0, v0⟩ := e
      simp only [appendToKey, keysOf, List.map_cons] at ih ⊢
      by_cases h : k0 = k
      · subst h
        cases v0 <;> simp [ih]
      · simp [h, ih]

theorem appendToKey_cons (k0 : String) (v0 : CVal) (r : List (String × CVal))
    (k : String) (v : CVal) :
    appendToKey ((k0, v0) :: r) k v =
      (if k0 = k then
        match v0 with
        | CVal.sequence items => (k0, CVal.sequence (items ++ [v]))
        | old => (k0, CVal.sequence [old, v])
       else (k0, v0)) :: appendToKey r k v := rfl

theorem appendToKey_of_hasKey_false (es : List (String × CVal)) (k : String) (v : CVal)
    (h : hasKey es k = false) : appendToKey es k v = es := by
  induction es with
  | nil => rfl
  | cons e r ih =>
      obtain ⟨k0, v0⟩ := e
      simp only [hasKey, List.any_cons, Bool.or_eq_false_iff, beq_eq_false_iff_ne] at h
      have hr := ih (by simpa [hasKey] using h.2)
      rw [appendToKey_cons, if_neg h.1, hr]

theorem appendToKey_append (a b : List (String × CVal)) (k : String) (v : CVal) :
    appendToKey (a ++ b) k v = appendToKey a k v ++ appendToKey b k v := by
  simp [appendToKey]

/-- The value a grouping step stores when an entry already exists. -/
def combineVal (w v : CVal) : CVal :=
  match w with
  | CVal.sequence xs => CVal.sequence (xs ++ [v])
  | w => CVal.sequence [w, v]

theorem combineOne_some (w v : CVal) : combineOne (some w) v = some (combineVal w v) := by
  cases w <;> rfl

theorem lookupEntry_eq_none_of_hasKey_false (es : List (String × CVal)) (n : String)
    (h : hasKey es n = false) : lookupEntry es n = none := by
  induction es with
  | nil => rfl
  | cons e r ih =>
      obtain ⟨k0, v0⟩ := e
      simp only [hasKey, List.any_cons, Bool.or_eq_false_iff, beq_eq_false_iff_ne] at h
      simp only [lookupEntry, if_neg h.1]
      exact ih (by simpa [hasKey] using h.2)

theorem lookupEntry_append (a b : List (String × CVal)) (n : String) :
    lookupEntry (a ++ b) n =
      match lookupEntry a n with
      | some w => some w
      | none => lookupEntry b n := by
  induction a with
  | nil => rfl
  | cons e r ih =>
      obtain ⟨k0, v0⟩ := e
      by_cases h : k0 = n
      · simp [lookupEntry, h]
      · simpa [lookupEntry, h] using ih

theorem lookupEntry_isSome_of_hasKey (es : List (String × CVal)) (n : String)
    (h : hasKey es n = true) : ∃ w, lookupEntry es n = some w := by
  induction es with
  | nil => simp [hasKey] at h
  | cons e r ih =>
      obtain ⟨k0, v0⟩ := e
      by_cases h0 : k0 = n
      · exact ⟨v0, by simp [lookupEntry, h0]⟩
      · simp only [hasKey, List.any_cons, Bool.or_eq_true, beq_iff_eq] at h
        obtain ⟨w, hw⟩ := ih (by simpa [hasKey] using h.resolve_left h0)
        exact ⟨w, by simp [lookupEntry, h0, hw]⟩

theorem lookupEntry_appendToKey_self (es : List (String × CVal)) (n : String) (v : CVal) :
    lookupEntry (appendToKey es n v) n = (lookupEntry es n).map (fun w => combineVal w v) := by
  induction es with
  | nil => rfl
  | cons e r ih =>
      obtain ⟨k0, v0⟩ := e
      rw [appendToKey_cons]
      by_cases h : k0 = n
      · subst h
        rw [if_pos rfl]
        cases v0 <;> simp [lookupEntry, combineVal]
      · rw [if_neg h]
        simp [lookupEntry, h, ih]

theorem lookupEntry_appendToKey_ne (es : List (String × CVal)) (k n : String) (v : CVal)
    (h : k ≠ n) :
    lookupEntry (appendToKey es k v) n = lookupEntry es n := by
  induction es with
  | nil => rfl
  | cons e r ih =>
      obtain ⟨k0, v0⟩ := e
      rw [appendToKey_cons]
      by_cases h0 : k0 = k
      · subst h0
        rw [if_pos rfl]
        have hn : k0 ≠ n := fun hc => h (hc ▸ rfl)
        cases v0 <;> simp [lookupEntry, hn, ih]
      · rw [if_neg h0]
        by_cases h1 : k0 = n
        · simp [lookupEntry, h1]
        · simp [lookupEntry, h1, ih]

theorem lookupEntry_insertElementEntry_self (es : List (String × CVal)) (n : String)
    (v : CVal) :
    lookupEntry (insertElementEntry es n v) n = combineOne (lookupEntry es n) v := by
  unfold insertElementEntry
  by_cases h : hasKey es n
  · rw [if_pos h, lookupEntry_appendToKey_self]
    obtain ⟨w, hw⟩ := lookupEntry_isSome_of_hasKey es n h
    rw [hw, combineOne_some]
    rfl
  · have hf : hasKey es n = false := by simpa using h
    rw [if_neg h, lookupEntry_append, lookupEntry_eq_none_of_hasKey_false es n hf]
    simp [lookupEntry, combineOne]

theorem lookupEntry_insertElementEntry_ne (es : List (String × CVal)) (k n : String)
    (v : CVal) (h : k ≠ n) :
    lookupEntry (insertElementEntry es k v) n = lookupEntry es n := by
  unfold insertElementEntry
  by_cases hk : hasKey es k
  · rw [if_pos hk]
    exact lookupEntry_appendToKey_ne es k n v h
  · rw [if_neg hk, lookupEntry_append]
    cases hl : lookupEntry es n with
    | some w => rfl
    | none => simp [lookupEntry, h]

theorem keysOf_insertElementEntry (es : List (String × CVal)) (k : String) (v : CVal) :
    keysOf (insertElementEntry es k v) =
      if hasKey es k then keysOf es else keysOf es ++ [k] := by
  unfold insertElementEntry
  by_cases h : hasKey es k
  · rw [if_pos h, if_pos h, keysOf_appendToKey]
  · rw [if_neg h, if_neg h, keysOf_append]
    rfl

theorem plainName_spec (n : String) (hn : plainName n = true) :
    ∃ c rest, n.data = c :: rest ∧
      c ≠ '@' ∧ c ≠ '#' ∧ c ≠ '!' ∧ c ≠ '?' ∧ c ≠ '$' := by
  unfold plainName at hn
  split at hn
  · exact absurd hn (by simp)
  · next c rest heq =>
      simp only [Bool.not_eq_true', Bool.or_eq_false_iff, decide_eq_false_iff_not] at hn
      exact ⟨c, rest, heq, hn.1.1.1.1, hn.1.1.1.2, hn.1.1.2, hn.1.2, hn.2⟩

theorem plainName_ne_of_head (n x : String) (hn : plainName n = true) (c : Char)
    (hc : c = '@' ∨ c = '#' ∨ c = '!' ∨ c = '?' ∨ c = '$')
    (hx : x.data.head? = some c) : x ≠ n := by
  obtain ⟨c0, rest, hd, h1, h2, h3, h4, h5⟩ := plainName_spec n hn
  intro he
  subst he
  rw [hd] at hx
  simp only [List.head?_cons, Option.some_inj] at hx
  subst hx
  rcases hc with h | h | h | h | h
  · exact h1 h
  · exact h2 h
  · exact h3 h
  · exact h4 h
  · exact h5 h

theorem headChar_append_left (a b : String) (c : Char) (rest : List Char)
    (h : a.data = c :: rest) : (a ++ b).data.head? = some c := by
  rw [data_append, h]
  rfl

theorem lookupEntry_append_single_ne (es : List (String × CVal)) (k n : String) (v : CVal)
    (h : k ≠ n) : lookupEntry (es ++ [(k, v)]) n = lookupEntry es n := by
  rw [lookupEntry_append]
  cases hl : lookupEntry es n <;> simp [lookupEntry, h]

theorem assemble_keys (pairs : List (XNode × CVal)) :
    ∀ entries t, keysOf (assemble pairs entries t) =
      keysOf entries ++ newKeys (pairs.map Prod.fst) (keysOf entries) t := by
  induction pairs with
  | nil => intro entries t; simp [assemble, newKeys]
  | cons p r ih =>
      intro entries t
      obtain ⟨c, v⟩ := p
      cases c with
      | text s =>
          simp only [assemble, List.map_cons, newKeys, ih, keysOf_append]
          simp [keysOf, List.append_assoc]
      | comment s =>
          simp only [assemble, List.map_cons, newKeys, ih, keysOf_append]
          simp [keysOf, List.append_assoc]
      | pi a b =>
          simp only [assemble, List.map_cons, newKeys, ih, keysOf_append]
          simp [keysOf, List.append_assoc]
      | cdata s =>
          simp only [assemble, List.map_cons, newKeys, ih, keysOf_append]
          simp [keysOf, List.append_assoc]
      | doctype => simp only [assemble, List.map_cons, newKeys, ih]
      | document cs => simp only [assemble, List.map_cons, newKeys, ih]
      | unknown k => simp only [assemble, List.map_cons, newKeys, ih]
      | element nm a cs =>
          simp only [assemble, List.map_cons, newKeys, ih, keysOf_insertElementEntry]
          by_cases h : hasKey entries nm
          · have hm : nm ∈ keysOf entries := (hasKey_iff_mem_keysOf entries nm).mp h
            rw [if_pos h, if_pos hm]
          · have hm : nm ∉ keysOf entries := fun hc =>
              h ((hasKey_iff_mem_keysOf entries nm).mpr hc)
            rw [if_neg h, if_neg hm]
            simp [List.append_assoc]

theorem assemble_lookup (n : String) (hn : plainName n = true)
    (pairs : List (XNode × CVal)) :
    ∀ entries t,
      lookupEntry (assemble pairs entries t) n =
        ((pairs.filter (fun p => isElemNamed n p.1)).map Prod.snd).foldl combineOne
          (lookupEntry entries n) := by
  induction pairs with
  | nil => intro entries t; simp [assemble]
  | cons p r ih =>
      intro entries t
      obtain ⟨c, v⟩ := p
      cases c with
      | text s =>
          have hne : ("#" ++ Nat.repr (t + 1)) ≠ n :=
            plainName_ne_of_head n _ hn '#' (by simp)
              (headChar_append_left "#" _ '#' [] rfl)
          simp only [assemble]
          rw [ih, lookupEntry_append_single_ne entries _ n v hne]
          simp [List.filter_cons, isElemNamed]
      | comment s =>
          have hne : ("!" : String) ≠ n :=
            plainName_ne_of_head n _ hn '!' (by simp) rfl
          simp only [assemble]
          rw [ih, lookupEntry_append_single_ne entries _ n v hne]
          simp [List.filter_cons, isElemNamed]
      | pi a b =>
          have hne : ("?" : String) ≠ n :=
            plainName_ne_of_head n _ hn '?' (by simp) rfl
          simp only [assemble]
          rw [ih, lookupEntry_append_single_ne entries _ n v hne]
          simp [List.filter_cons, isElemNamed]
      | cdata s =>
          have hne : ("$" : String) ≠ n :=
            plainName_ne_of_head n _ hn '$' (by simp) rfl
          simp only [assemble]
          rw [ih, lookupEntry_append_single_ne entries _ n v hne]
          simp [List.filter_cons, isElemNamed]
      | doctype =>
          simp only [assemble]
          rw [ih]
          simp [List.filter_cons, isElemNamed]
      | document cs =>
          simp only [assemble]
          rw [ih]
          simp [List.filter_cons, isElemNamed]
      | unknown k =>
          simp only [assemble]
          rw [ih]
          simp [List.filter_cons, isElemNamed]
      | element nm a cs =>
          by_cases he : nm = n
          · subst he
            simp only [assemble]
            rw [ih, lookupEntry_insertElementEntry_self]
            simp [List.filter_cons, isElemNamed]
          · simp only [assemble]
            rw [ih, lookupEntry_insertElementEntry_ne entries nm n v he]
            simp [List.filter_cons, isElemNamed, he]

theorem assemble_prefix (pairs : List (XNode × CVal)) :
    ∀ (pro opn : List (String × CVal)) (t : Nat),
      (∀ p ∈ pairs, ∀ nm a c, p.1 = XNode.element nm a c → hasKey pro nm = false) →
      ∃ rest, assemble pairs (pro ++ opn) t = pro ++ rest := by
  induction pairs with
  | nil => intro pro opn t _; exact ⟨opn, rfl⟩
  | cons p r ih =>
      intro pro opn t h
      obtain ⟨c, v⟩ := p
      have hr : ∀ p ∈ r, ∀ nm a c, p.1 = XNode.element nm a c → hasKey pro nm = false :=
        fun p hp => h p (List.mem_cons_of_mem _ hp)
      cases c with
      | text s =>
          simp only [assemble]
          rw [List.append_assoc]
          exact ih pro _ (t + 1) hr
      | comment s =>
          simp only [assemble]
          rw [List.append_assoc]
          exact ih pro _ t hr
      | pi a b =>
          simp only [assemble]
          rw [List.append_assoc]
          exact ih pro _ t hr
      | cdata s =>
          simp only [assemble]
          rw [List.append_assoc]
          exact ih pro _ t hr
      | doctype => simpa only [assemble] using ih pro opn t hr
      | document cs => simpa only [assemble] using ih pro opn t hr
      | unknown k => simpa only [assemble] using ih pro opn t hr
      | element nm a cs =>
          have hpro : hasKey pro nm = false :=
            h (XNode.element nm a cs, v) (List.mem_cons_self _ _) nm a cs rfl
          simp only [assemble]
          unfold insertElementEntry
          by_cases hk : hasKey (pro ++ opn) nm
          · rw [if_pos hk, appendToKey_append, appendToKey_of_hasKey_false pro nm v hpro]
            exact ih pro _ t hr
          · rw [if_neg hk, List.append_assoc]
            exact ih pro _ t hr

theorem buildList_ok_spec (cs : List XNode) :
    ∀ pairs, buildList cs = Except.ok pairs →
      pairs.map Prod.fst = cs ∧ ∀ p ∈ pairs, build p.1 = Except.ok p.2 := by
  induction cs with
  | nil =>
      intro pairs h
      simp only [buildList, Except.ok.injEq] at h
      subst h
      simp
  | cons c r ih =>
      intro pairs h
      cases hb : build c with
      | error e => simp [buildList, hb] at h
      | ok v =>
          cases hbl : buildList r with
          | error e => simp [buildList, hb, hbl] at h
          | ok ps =>
              simp only [buildList, hb, hbl, Except.ok.injEq] at h
              subst h
              obtain ⟨h1, h2⟩ := ih ps hbl
              refine ⟨by simp [h1], ?_⟩
              intro p hp
              rcases List.mem_cons.mp hp with h | h
              · subst h; exact hb
              · exact h2 p h

theorem listBuild_of_pairs (pl : List (XNode × CVal))
    (h : ∀ p ∈ pl, build p.1 = Except.ok p.2) :
    listBuild (pl.map Prod.fst) = Except.ok (pl.map Prod.snd) := by
  induction pl with
  | nil => rfl
  | cons p r ih =>
      simp only [List.map_cons, listBuild]
      rw [h p (List.mem_cons_self _ _), ih (fun q hq => h q (List.mem_cons_of_mem _ hq))]

theorem foldl_combineOne_seq (l : List CVal) :
    ∀ xs, l.foldl combineOne (some (CVal.sequence xs)) = some (CVal.sequence (xs ++ l)) := by
  induction l with
  | nil => intro xs; simp
  | cons v r ih =>
      intro xs
      simp only [List.foldl_cons, combineOne, ih]
      simp

theorem foldl_combineOne_none_pair (v w : CVal) (r : List CVal) (hv : isSeq v = false) :
    (v :: w :: r).foldl combineOne none = some (CVal.sequence (v :: w :: r)) := by
  have h1 : combineOne (some v) w = some (CVal.sequence [v, w]) := by
    cases v <;> simp [combineOne, isSeq] at hv ⊢
  simp only [List.foldl_cons]
  rw [show combineOne none v = some v from rfl, h1, foldl_combineOne_seq]
  simp

theorem build_element_ok_mapping (nm : String) (attrs : List (String × String))
    (cs : List XNode) (es : List (String × CVal))
    (h : build (XNode.element nm attrs cs) = Except.ok (CVal.mapping es)) :
    ∃ pairs, buildList cs = Except.ok pairs ∧ es = assemble pairs (attrEntries attrs) 0 := by
  simp only [build] at h
  split at h
  · simp at h
  · split at h
    · simp at h
    · next pairs heq =>
        simp only [Except.ok.injEq, CVal.mapping.injEq] at h
        exact ⟨pairs, heq, h.symm⟩

theorem build_element_not_seq (nm : String) (attrs : List (String × String))
    (cs : List XNode) (v : CVal)
    (h : build (XNode.element nm attrs cs) = Except.ok v) : isSeq v = false := by
  simp only [build] at h
  split at h
  · simp only [Except.ok.injEq] at h
    subst h
    rfl
  · split at h
    · simp at h
    · simp only [Except.ok.injEq] at h
      subst h
      rfl

theorem lookupEntry_attrEntries_plain (attrs : List (String × String)) (n : String)
    (hn : plainName n = true) : lookupEntry (attrEntries attrs) n = none := by
  induction attrs with
  | nil => rfl
  | cons a r ih =>
      have hne : ("@" ++ a.1) ≠ n :=
        plainName_ne_of_head n _ hn '@' (by simp) (headChar_append_left "@" _ '@' [] rfl)
      simpa [attrEntries, lookupEntry, hne] using ih

theorem isElemNamed_elim (n : String) (x : XNode) (h : isElemNamed n x = true) :
    ∃ a c, x = XNode.element n a c := by
  cases x with
  | element nm a c =>
      simp only [isElemNamed, beq_iff_eq] at h
      subst h
      exact ⟨a, c, rfl⟩
  | document cs => simp [isElemNamed] at h
  | text s => simp [isElemNamed] at h
  | cdata s => simp [isElemNamed] at h
  | comment s => simp [isElemNamed] at h
  | pi a b => simp [isElemNamed] at h
  | doctype => simp [isElemNamed] at h
  | unknown k => simp [isElemNamed] at h

theorem elemsNamed_values (n : String) (cs : List XNode) (pairs : List (XNode × CVal))
    (h1 : pairs.map Prod.fst = cs) (h2 : ∀ p ∈ pairs, build p.1 = Except.ok p.2) :
    listBuild (elemsNamed n cs) =
      Except.ok ((pairs.filter (fun p => isElemNamed n p.1)).map Prod.snd) := by
  have hf : elemsNamed n cs = (pairs.filter (fun p => isElemNamed n p.1)).map Prod.fst := by
    rw [elemsNamed, ← h1, List.filter_map]
    rfl
  rw [hf]
  exact listBuild_of_pairs _ (fun p hp => h2 p (List.mem_filter.mp hp).1)

theorem elemsNamed_length (n : String) (cs : List XNode) (pairs : List (XNode × CVal))
    (h1 : pairs.map Prod.fst = cs) :
    ((pairs.filter (fun p => isElemNamed n p.1)).map Prod.snd).length =
      (elemsNamed n cs).length := by
  rw [elemsNamed, ← h1, List.filter_map]
  simp only [List.length_map]
  rfl

/-- C1: For every element whose children contain at least two same-named
Element children (any plain tag name `n`), the built Mapping maps `n` to a
Sequence holding exactly those children's built values in document order —
its length is the occurrence count — and the Mapping's key list equals the
attribute keys followed by `newKeys`, which emits an Element name only at
its first occurrence: later same-named siblings never move the key, even
with siblings of other kinds interposed between occurrences. -/
theorem claim_C1 (pn n : String) (attrs : List (String × String)) (cs : List XNode)
    (es : List (String × CVal)) (vs : List CVal)
    (hn : plainName n = true)
    (hb : build (XNode.element pn attrs cs) = Except.ok (CVal.mapping es))
    (hvs : listBuild (elemsNamed n cs) = Except.ok vs)
    (hlen : 2 ≤ vs.length) :
    lookupEntry es n = some (CVal.sequence vs)
    ∧ vs.length = (elemsNamed n cs).length
    ∧ keysOf es = keysOf (attrEntries attrs) ++ newKeys cs (keysOf (attrEntries attrs)) 0 := by
  obtain ⟨pairs, hbl, hes⟩ := build_element_ok_mapping pn attrs cs es hb
  obtain ⟨h1, h2⟩ := buildList_ok_spec cs pairs hbl
  have hval := elemsNamed_values n cs pairs h1 h2
  rw [hvs] at hval
  have hvs2 : vs = (pairs.filter (fun p => isElemNamed n p.1)).map Prod.snd := by
    injection hval
  subst hes
  refine ⟨?_, ?_, ?_⟩
  · rw [assemble_lookup n hn pairs (attrEntries attrs) 0,
      lookupEntry_attrEntries_plain attrs n hn, ← hvs2]
    cases vs with
    | nil => simp at hlen
    | cons v r0 =>
        cases r0 with
        | nil => simp at hlen
        | cons w r =>
            apply foldl_combineOne_none_pair
            cases hfil : pairs.filter (fun p => isElemNamed n p.1) with
            | nil => rw [hfil] at hvs2; simp at hvs2
            | cons p l2 =>
                rw [hfil] at hvs2
                simp only [List.map_cons, List.cons.injEq] at hvs2
                have hpm : p ∈ pairs.filter (fun p => isElemNamed n p.1) := by
                  rw [hfil]; exact List.mem_cons_self p l2
                have hmem := List.mem_filter.mp hpm
                obtain ⟨a, c, hpc⟩ := isElemNamed_elim n p.1 (by simpa using hmem.2)
                have hbv := h2 p hmem.1
                rw [hpc] at hbv
                rw [hvs2.1]
                exact build_element_not_seq n a c p.2 hbv
  · rw [hvs2]
    exact elemsNamed_length n cs pairs h1
  · rw [assemble_keys pairs (attrEntries attrs) 0, h1]

def exMixChildren : List XNode :=
  [XNode.text "hello",
   XNode.element "person" [("name", "xxx")] [],
   XNode.text "world",
   XNode.element "person" [("name", "yyy")] []]

def exMixEntries : List (String × CVal) :=
  [("#1", CVal.scalar "hello"),
   ("person", CVal.sequence [CVal.mapping [("@name", CVal.scalar "xxx")],
                             CVal.mapping [("@name", CVal.scalar "yyy")]]),
   ("#2", CVal.scalar "world")]

theorem claim_C1_witness :
    lookupEntry exMixEntries "person" =
      some (CVal.sequence [CVal.mapping [("@name", CVal.scalar "xxx")],
                           CVal.mapping [("@name", CVal.scalar "yyy")]]) :=
  (claim_C1 "people" "person" [] exMixChildren exMixEntries
    [CVal.mapping [("@name", CVal.scalar "xxx")],
     CVal.mapping [("@name", CVal.scalar "yyy")]]
    (by decide) rfl rfl (by decide)).1

/-- C7: For every element whose children contain exactly one Element child
of a given plain tag name, the built Mapping maps that name directly to
the child's built value, which is never a Sequence — in particular it is
never wrapped in a single-item Sequence. -/
theorem claim_C7 (pn n : String) (attrs : List (String × String)) (cs : List XNode)
    (es : List (String × CVal)) (v : CVal)
    (hn : plainName n = true)
    (hb : build (XNode.element pn attrs cs) = Except.ok (CVal.mapping es))
    (hv : listBuild (elemsNamed n cs) = Except.ok [v]) :
    lookupEntry es n = some v ∧ isSeq v = false := by
  obtain ⟨pairs, hbl, hes⟩ := build_element_ok_mapping pn attrs cs es hb
  obtain ⟨h1, h2⟩ := buildList_ok_spec cs pairs hbl
  have hval := elemsNamed_values n cs pairs h1 h2
  rw [hv] at hval
  have hvs2 : [v] = (pairs.filter (fun p => isElemNamed n p.1)).map Prod.snd := by
    injection hval
  have hnseq : isSeq v = false := by
    cases hfil : pairs.filter (fun p => isElemNamed n p.1) with
    | nil => rw [hfil] at hvs2; simp at hvs2
    | cons p l2 =>
        rw [hfil] at hvs2
        simp only [List.map_cons, List.cons.injEq] at hvs2
        have hpm : p ∈ pairs.filter (fun p => isElemNamed n p.1) := by
          rw [hfil]; exact List.mem_cons_self p l2
        have hmem := List.mem_filter.mp hpm
        obtain ⟨a, c, hpc⟩ := isElemNamed_elim n p.1 (by simpa using hmem.2)
        have hbv := h2 p hmem.1
        rw [hpc] at hbv
        rw [hvs2.1]
        exact build_element_not_seq n a c p.2 hbv
  subst hes
  refine ⟨?_, hnseq⟩
  rw [assemble_lookup n hn pairs (attrEntries attrs) 0,
    lookupEntry_attrEntries_plain attrs n hn, ← hvs2]
  rfl

def exMix1Children : List XNode :=
  [XNode.text "hello",
   XNode.element "person" [("name", "xxx")] [],
   XNode.text "world"]

def exMix1Entries : List (String × CVal) :=
  [("#1", CVal.scalar "hello"),
   ("person", CVal.mapping [("@name", CVal.scalar "xxx")]),
   ("#2", CVal.scalar "world")]

theorem claim_C7_witness :
    lookupEntry exMix1Entries "person" = some (CVal.mapping [("@name", CVal.scalar "xxx")])
    ∧ isSeq (CVal.mapping [("@name", CVal.scalar "xxx")]) = false :=
  claim_C7 "people" "person" [] exMix1Children exMix1Entries
    (CVal.mapping [("@name", CVal.scalar "xxx")]) (by decide) rfl rfl

/-- C2: For every element with zero attributes and exactly one child that
is a plain Text node, build returns that text's string directly as a
Scalar — no Mapping is built — and inside a parent element the element's
key maps straight to the string. -/
theorem claim_C2 (pn cn s : String) :
    build (XNode.element cn [] [XNode.text s]) = Except.ok (CVal.scalar s)
    ∧ build (XNode.element pn [] [XNode.element cn [] [XNode.text s]]) =
        Except.ok (CVal.mapping [(cn, CVal.scalar s)]) :=
  ⟨rfl, rfl⟩

theorem keysOf_attrEntries (attrs : List (String × String)) :
    keysOf (attrEntries attrs) = attrs.map (fun a => "@" ++ a.1) := by
  simp [keysOf, attrEntries]

theorem hasKey_attrEntries_plain (attrs : List (String × String)) (n : String)
    (hn : plainName n = true) : hasKey (attrEntries attrs) n = false := by
  cases hk : hasKey (attrEntries attrs) n with
  | false => rfl
  | true =>
      exfalso
      have hm := (hasKey_iff_mem_keysOf _ n).mp hk
      rw [keysOf_attrEntries] at hm
      obtain ⟨a, _, ha⟩ := List.mem_map.mp hm
      exact plainName_ne_of_head n ("@" ++ a.1) hn '@' (by simp)
        (headChar_append_left "@" _ '@' [] rfl) ha

theorem headChar_of_plain_ne_at (nm : String) (hn : plainName nm = true) (c : Char)
    (hc : c = '@' ∨ c = '#' ∨ c = '!' ∨ c = '?' ∨ c = '$') :
    (headChar nm == some c) = false := by
  obtain ⟨c0, rest, hd, h1, h2, h3, h4, h5⟩ := plainName_spec nm hn
  have : headChar nm = some c0 := by rw [headChar, hd]; rfl
  rw [this]
  simp only [beq_eq_false_iff_ne, ne_eq, Option.some_inj]
  intro he
  subst he
  rcases hc with h | h | h | h | h
  · exact h1 h
  · exact h2 h
  · exact h3 h
  · exact h4 h
  · exact h5 h

theorem plainChildren_cons (c : XNode) (r : List XNode)
    (h : plainChildren (c :: r) = true) :
    plainChildren r = true ∧ (∀ nm a cc, c = XNode.element nm a cc → plainName nm = true) := by
  simp only [plainChildren, List.all_cons, Bool.and_eq_true] at h
  refine ⟨h.2, ?_⟩
  intro nm a cc hc
  subst hc
  exact h.1

theorem newKeys_not_attr (cs : List XNode) :
    ∀ seen t, plainChildren cs = true →
      (newKeys cs seen t).all (fun k => !(headChar k == some '@')) = true := by
  induction cs with
  | nil => intro seen t _; rfl
  | cons c r ih =>
      intro seen t h
      obtain ⟨hr, hel⟩ := plainChildren_cons c r h
      cases c with
      | text s =>
          simp only [newKeys, List.all_cons, Bool.and_eq_true]
          
          refine ⟨?_, ih _ _ hr⟩
          rw [show headChar ("#" ++ Nat.repr (t + 1)) = some '#' from
            headChar_append_left "#" _ '#' [] rfl]
          rfl
      | comment s =>
          simp only [newKeys, List.all_cons, Bool.and_eq_true]
          exact ⟨rfl, ih _ _ hr⟩
      | pi a b =>
          simp only [newKeys, List.all_cons, Bool.and_eq_true]
          exact ⟨rfl, ih _ _ hr⟩
      | cdata s =>
          simp only [newKeys, List.all_cons, Bool.and_eq_true]
          exact ⟨rfl, ih _ _ hr⟩
      | doctype => simpa only [newKeys] using ih _ _ hr
      | document cc => simpa only [newKeys] using ih _ _ hr
      | unknown k => simpa only [newKeys] using ih _ _ hr
      | element nm a cc =>
          have hp := hel nm a cc rfl
          simp only [newKeys]
          by_cases hm : nm ∈ seen
          · rw [if_pos hm]
            exact ih _ _ hr
          · rw [if_neg hm]
            simp only [List.all_cons, Bool.and_eq_true]
            refine ⟨?_, ih _ _ hr⟩
            rw [headChar_of_plain_ne_at nm hp '@' (by simp)]
            rfl

/-- C4: In every Mapping built for an element whose Element children bear
plain tag names, the attribute entries (keyed `@name`, in attribute
insertion order) form a prefix of the Mapping, every remaining entry comes
after them, and no later key is an `@`-key — attributes always precede all
child entries. (The node model stores attributes apart from children, so
this holds regardless of the order of declarations during construction.) -/
theorem claim_C4 (nm : String) (attrs : List (String × String)) (cs : List XNode)
    (es : List (String × CVal))
    (hpc : plainChildren cs = true)
    (hb : build (XNode.element nm attrs cs) = Except.ok (CVal.mapping es)) :
    ∃ rest, es = attrEntries attrs ++ rest
      ∧ keysOf rest = newKeys cs (keysOf (attrEntries attrs)) 0
      ∧ (keysOf rest).all (fun k => !(headChar k == some '@')) = true := by
  obtain ⟨pairs, hbl, hes⟩ := build_element_ok_mapping nm attrs cs es hb
  obtain ⟨h1, h2⟩ := buildList_ok_spec cs pairs hbl
  have hcond : ∀ p ∈ pairs, ∀ nm' a c, p.1 = XNode.element nm' a c →
      hasKey (attrEntries attrs) nm' = false := by
    intro p hp nm' a c hpc'
    have hmem : p.1 ∈ cs := by
      rw [← h1]
      exact List.mem_map_of_mem Prod.fst hp
    have : plainName nm' = true := by
      rw [hpc'] at hmem
      have := List.all_eq_true.mp hpc _ hmem
      simpa using this
    exact hasKey_attrEntries_plain attrs nm' this
  obtain ⟨rest, hrest⟩ := assemble_prefix pairs (attrEntries attrs) [] 0 hcond
  rw [List.append_nil] at hrest
  refine ⟨rest, by rw [hes, hrest], ?_, ?_⟩
  · have hk : keysOf es = keysOf (attrEntries attrs) ++ keysOf rest := by
      rw [hes, hrest, keysOf_append]
    have hk2 : keysOf es =
        keysOf (attrEntries attrs) ++ newKeys cs (keysOf (attrEntries attrs)) 0 := by
      rw [hes, assemble_keys pairs (attrEntries attrs) 0, h1]
    have := hk ▸ hk2
    exact List.append_cancel_left this
  · have hk : keysOf es = keysOf (attrEntries attrs) ++ keysOf rest := by
      rw [hes, hrest, keysOf_append]
    have hk2 : keysOf es =
        keysOf (attrEntries attrs) ++ newKeys cs (keysOf (attrEntries attrs)) 0 := by
      rw [hes, assemble_keys pairs (attrEntries attrs) 0, h1]
    have heq : keysOf rest = newKeys cs (keysOf (attrEntries attrs)) 0 :=
      List.append_cancel_left (hk ▸ hk2)
    rw [heq]
    exact newKeys_not_attr cs _ 0 hpc

def exBasicAttrs : List (String × String) := [("age", "35")]

def exBasicChildren : List XNode :=
  [XNode.element "name" [] [XNode.text "John"], XNode.text "note"]

theorem claim_C4_witness :
    ∃ rest,
      [("@age", CVal.scalar "35"), ("name", CVal.scalar "John"), ("#1", CVal.scalar "note")] =
        attrEntries exBasicAttrs ++ rest
      ∧ keysOf rest = newKeys exBasicChildren (keysOf (attrEntries exBasicAttrs)) 0
      ∧ (keysOf rest).all (fun k => !(headChar k == some '@')) = true :=
  claim_C4 "person" exBasicAttrs exBasicChildren
    [("@age", CVal.scalar "35"), ("name", CVal.scalar "John"), ("#1", CVal.scalar "note")]
    (by decide) rfl

theorem attrKeys_filter_hash (attrs : List (String × String)) :
    (keysOf (attrEntries attrs)).filter (fun k => headChar k == some '#') = [] := by
  induction attrs with
  | nil => rfl
  | cons a r ih =>
      rw [keysOf_attrEntries] at ih ⊢
      simp only [List.map_cons, List.filter_cons]
      rw [show headChar ("@" ++ a.1) = some '@' from headChar_append_left "@" _ '@' [] rfl]
      simpa using ih

theorem newKeys_filter_hash (cs : List XNode) :
    ∀ seen t, plainChildren cs = true →
      (newKeys cs seen t).filter (fun k => headChar k == some '#') =
        (List.range (countTexts cs)).map (fun i => "#" ++ Nat.repr (t + i + 1)) := by
  induction cs with
  | nil => intro seen t _; rfl
  | cons c r ih =>
      intro seen t h
      obtain ⟨hr, hel⟩ := plainChildren_cons c r h
      cases c with
      | text s =>
          simp only [newKeys, countTexts, List.filter_cons]
          rw [show headChar ("#" ++ Nat.repr (t + 1)) = some '#' from
            headChar_append_left "#" _ '#' [] rfl]
          rw [show ((some '#' : Option Char) == some '#') = true by decide, if_pos rfl]
          rw [ih _ _ hr, List.range_succ_eq_map, List.map_cons, List.map_map]
          congr 1
          apply List.map_congr_left
          intro i _
          simp only [Function.comp_apply]
          have : t + 1 + i + 1 = t + (i + 1) + 1 := by omega
          rw [this]
      | comment s =>
          simp only [newKeys, countTexts, List.filter_cons]
          rw [show (headChar "!" == some '#') = false by decide]
          simpa using ih _ _ hr
      | pi a b =>
          simp only [newKeys, countTexts, List.filter_cons]
          rw [show (headChar "?" == some '#') = false by decide]
          simpa using ih _ _ hr
      | cdata s =>
          simp only [newKeys, countTexts, List.filter_cons]
          rw [show (headChar "$" == some '#') = false by decide]
          simpa using ih _ _ hr
      | doctype => simpa only [newKeys, countTexts] using ih _ _ hr
      | document cc => simpa only [newKeys, countTexts] using ih _ _ hr
      | unknown k => simpa only [newKeys, countTexts] using ih _ _ hr
      | element nm a cc =>
          have hp := hel nm a cc rfl
          simp only [newKeys, countTexts]
          by_cases hm : nm ∈ seen
          · rw [if_pos hm]
            exact ih _ _ hr
          · rw [if_neg hm]
            simp only [List.filter_cons]
            rw [headChar_of_plain_ne_at nm hp '#' (by simp)]
            simpa using ih _ _ hr

/-- C3: For every element whose build yields a Mapping (so the sole-child
collapse does not apply) and whose Element children bear plain tag names,
the `#`-labelled keys of the Mapping are exactly `#1, #2, ...` up to the
number of plain-Text children, in document order: the counter is scoped to
the element, starts at 1, counts only plain-Text children, and is
unaffected by interleaving with children of other kinds. -/
theorem claim_C3 (nm : String) (attrs : List (String × String)) (cs : List XNode)
    (es : List (String × CVal))
    (hpc : plainChildren cs = true)
    (hb : build (XNode.element nm attrs cs) = Except.ok (CVal.mapping es)) :
    (keysOf es).filter (fun k => headChar k == some '#') =
      (List.range (countTexts cs)).map (fun i => "#" ++ Nat.repr (i + 1)) := by
  obtain ⟨pairs, hbl, hes⟩ := build_element_ok_mapping nm attrs cs es hb
  obtain ⟨h1, _⟩ := buildList_ok_spec cs pairs hbl
  rw [hes, assemble_keys pairs (attrEntries attrs) 0, h1, List.filter_append,
    attrKeys_filter_hash, newKeys_filter_hash cs _ 0 hpc]
  simp only [List.nil_append]
  apply List.map_congr_left
  intro i _
  have : 0 + i + 1 = i + 1 := by omega
  rw [this]

theorem claim_C3_witness :
    (keysOf [("#1", CVal.scalar "hello"),
      ("person", CVal.mapping [("@name", CVal.scalar "xxx")]),
      ("#2", CVal.scalar "world")]).filter (fun k => headChar k == some '#') =
      (List.range (countTexts exMix1Children)).map (fun i => "#" ++ Nat.repr (i + 1)) :=
  claim_C3 "people" [] exMix1Children
    [("#1", CVal.scalar "hello"),
     ("person", CVal.mapping [("@name", CVal.scalar "xxx")]),
     ("#2", CVal.scalar "world")]
    (by decide) rfl

theorem buildList_append_ok (a : List XNode) :
    ∀ b pa pb, buildList a = Except.ok pa → buildList b = Except.ok pb →
      buildList (a ++ b) = Except.ok (pa ++ pb) := by
  induction a with
  | nil =>
      intro b pa pb ha hb
      simp only [buildList, Except.ok.injEq] at ha
      subst ha
      simpa using hb
  | cons c r ih =>
      intro b pa pb ha hb
      cases hc : build c with
      | error e => simp [buildList, hc] at ha
      | ok v =>
          cases hr : buildList r with
          | error e => simp [buildList, hc, hr] at ha
          | ok ps =>
              simp only [buildList, hc, hr, Except.ok.injEq] at ha
              subst ha
              rw [List.cons_append]
              simp only [buildList, hc]
              rw [ih b ps pb hr hb]
              rfl

theorem buildList_doctype (l : List XNode) (h : ∀ x ∈ l, x = XNode.doctype) :
    buildList l = Except.ok (l.map (fun x => (x, CVal.mapping []))) := by
  induction l with
  | nil => rfl
  | cons c r ih =>
      have hc := h c (List.mem_cons_self _ _)
      subst hc
      simp only [buildList, List.map_cons]
      rw [show build XNode.doctype = Except.ok (CVal.mapping []) from rfl,
        ih (fun x hx => h x (List.mem_cons_of_mem _ hx))]

theorem assemble_skip_doctype (pa : List (XNode × CVal)) (h : ∀ p ∈ pa, p.1 = XNode.doctype) :
    ∀ rest entries t, assemble (pa ++ rest) entries t = assemble rest entries t := by
  induction pa with
  | nil => intro rest entries t; rfl
  | cons p r ih =>
      intro rest entries t
      obtain ⟨c, v⟩ := p
      have hc : c = XNode.doctype := h (c, v) (List.mem_cons_self _ _)
      subst hc
      simp only [List.cons_append, assemble]
      exact ih (fun q hq => h q (List.mem_cons_of_mem _ hq)) rest entries t

theorem assemble_doctype_only (pb : List (XNode × CVal)) (h : ∀ p ∈ pb, p.1 = XNode.doctype)
    (entries : List (String × CVal)) (t : Nat) : assemble pb entries t = entries := by
  have := assemble_skip_doctype pb h [] entries t
  rwa [List.append_nil] at this

/-- C8: For every Document node whose children are a document element
surrounded by any DocumentType children, build returns the single-entry
Mapping from the document element's name to that element's built value:
the Document is a transparent wrapper and DocumentType children contribute
nothing to the Canonical Value. -/
theorem claim_C8 (pre post : List XNode) (name : String) (attrs : List (String × String))
    (ech : List XNode) (v : CVal)
    (hpre : ∀ x ∈ pre, x = XNode.doctype) (hpost : ∀ x ∈ post, x = XNode.doctype)
    (hv : build (XNode.element name attrs ech) = Except.ok v) :
    build (XNode.document (pre ++ XNode.element name attrs ech :: post)) =
      Except.ok (CVal.mapping [(name, v)]) := by
  have hpost' := buildList_doctype post hpost
  have hmid : buildList (XNode.element name attrs ech :: post) =
      Except.ok ((XNode.element name attrs ech, v) ::
        post.map (fun x => (x, CVal.mapping []))) := by
    simp only [buildList, hv, hpost']
  have hbl := buildList_append_ok pre _ _ _ (buildList_doctype pre hpre) hmid
  simp only [build, hbl]
  rw [assemble_skip_doctype (pre.map (fun x => (x, CVal.mapping [])))
    (by
      intro p hp
      obtain ⟨x, hx, hpx⟩ := List.mem_map.mp hp
      rw [← hpx]
      exact hpre x hx)]
  simp only [assemble]
  rw [show insertElementEntry [] name v = [(name, v)] from rfl]
  rw [assemble_doctype_only (post.map (fun x => (x, CVal.mapping [])))
    (by
      intro p hp
      obtain ⟨x, hx, hpx⟩ := List.mem_map.mp hp
      rw [← hpx]
      exact hpost x hx)]

theorem claim_C8_witness :
    build (XNode.document ([XNode.doctype] ++ XNode.element "root" [] [] :: [])) =
      Except.ok (CVal.mapping [("root", CVal.mapping [])]) :=
  claim_C8 [XNode.doctype] [] "root" [] [] (CVal.mapping [])
    (by intro x hx; simpa using hx) (by intro x hx; simp at hx) rfl

mutual

theorem cu_build_spec : ∀ n : XNode,
    (containsUnknown n = true → build n = Except.error "UnsupportedNodeKind")
    ∧ (containsUnknown n = false → ∃ v, build n = Except.ok v)
  | XNode.document cs => by
      have hl := cu_buildList_spec cs
      constructor
      · intro h
        simp only [containsUnknown] at h
        simp only [build, hl.1 h]
      · intro h
        simp only [containsUnknown] at h
        obtain ⟨ps, hps⟩ := hl.2 h
        exact ⟨CVal.mapping (assemble ps [] 0), by simp only [build, hps]⟩
  | XNode.element nm attrs cs => by
      have hl := cu_buildList_spec cs
      constructor
      · intro h
        simp only [containsUnknown] at h
        simp only [build]
        split
        · next s =>
            simp [cuList, containsUnknown] at h
        · rw [hl.1 h]
      · intro h
        simp only [containsUnknown] at h
        simp only [build]
        split
        · exact ⟨_, rfl⟩
        · obtain ⟨ps, hps⟩ := hl.2 h
          rw [hps]
          exact ⟨_, rfl⟩
  | XNode.text s => ⟨fun h => by simp [containsUnknown] at h, fun _ => ⟨_, rfl⟩⟩
  | XNode.cdata s => ⟨fun h => by simp [containsUnknown] at h, fun _ => ⟨_, rfl⟩⟩
  | XNode.comment s => ⟨fun h => by simp [containsUnknown] at h, fun _ => ⟨_, rfl⟩⟩
  | XNode.pi a b => ⟨fun h => by simp [containsUnknown] at h, fun _ => ⟨_, rfl⟩⟩
  | XNode.doctype => ⟨fun h => by simp [containsUnknown] at h, fun _ => ⟨_, rfl⟩⟩
  | XNode.unknown k => ⟨fun _ => rfl, fun h => by simp [containsUnknown] at h⟩

theorem cu_buildList_spec : ∀ cs : List XNode,
    (cuList cs = true → buildList cs = Except.error "UnsupportedNodeKind")
    ∧ (cuList cs = false → ∃ ps, buildList cs = Except.ok ps)
  | [] => ⟨fun h => by simp [cuList] at h, fun _ => ⟨[], rfl⟩⟩
  | c :: r => by
      have hc := cu_build_spec c
      have hr := cu_buildList_spec r
      constructor
      · intro h
        simp only [cuList, Bool.or_eq_true] at h
        cases hcu : containsUnknown c with
        | true => simp only [buildList, hc.1 hcu]
        | false =>
            have hcl : cuList r = true := by
              rcases h with h1 | h2
              · rw [hcu] at h1; exact absurd h1 (by simp)
              · exact h2
            obtain ⟨v, hv⟩ := hc.2 hcu
            simp only [buildList, hv, hr.1 hcl]
      · intro h
        simp only [cuList, Bool.or_eq_false_iff] at h
        obtain ⟨v, hv⟩ := hc.2 h.1
        obtain ⟨ps, hps⟩ := hr.2 h.2
        exact ⟨(c, v) :: ps, by simp only [buildList, hv, hps]⟩

end

/-- C5: build fails — with the single error UnsupportedNodeKind and no
partial Canonical Value — exactly when the tree contains a node of a kind
outside the closed set anywhere, and succeeds with some Canonical Value on
every tree whose nodes all belong to the closed set: there are no other
error conditions. -/
theorem claim_C5 (n : XNode) :
    (containsUnknown n = true → build n = Except.error "UnsupportedNodeKind")
    ∧ (containsUnknown n = false → ∃ v, build n = Except.ok v) :=
  cu_build_spec n

theorem claim_C5_witness :
    build (XNode.document [XNode.element "root" []
        [XNode.element "alien" [] [XNode.unknown 1001]]]) =
      Except.error "UnsupportedNodeKind"
    ∧ ∃ v, build (XNode.document [XNode.element "root" [] []]) = Except.ok v :=
  ⟨(claim_C5 (XNode.document [XNode.element "root" []
      [XNode.element "alien" [] [XNode.unknown 1001]]])).1 (by decide),
   (claim_C5 (XNode.document [XNode.element "root" [] []])).2 (by decide)⟩

/-- C10: `preventDefault()` (equivalently assigning `returnValue = false`)
sets the canceled flag — making `defaultPrevented` true — exactly when the
event is cancelable and not in a passive listener; when that guard fails
the call leaves the event completely unchanged, so `defaultPrevented`
stays as it was (false if it was false). -/
theorem claim_C10 (e : EventState) :
    setReturnValue e false = preventDefault e
    ∧ defaultPrevented (preventDefault e) =
        (e.canceled || (e.cancelable && !e.inPassiveListener))
    ∧ (if e.cancelable && !e.inPassiveListener
        then preventDefault e = { e with canceled := true }
        else preventDefault e = e) := by
  refine ⟨rfl, ?_, ?_⟩
  · unfold preventDefault setCanceled defaultPrevented
    by_cases h : e.cancelable && !e.inPassiveListener
    · rw [if_pos h, h]
      simp
    · rw [if_neg h]
      have hf : (e.cancelable && !e.inPassiveListener) = false := by
        cases hg : e.cancelable && !e.inPassiveListener with
        | false => rfl
        | true => exact absurd hg h
      rw [hf]
      simp
  · unfold preventDefault setCanceled
    by_cases h : e.cancelable && !e.inPassiveListener
    · rw [if_pos h, if_pos h]
    · rw [if_neg h, if_neg h]

theorem hexDigit_ne_nl (n : Nat) (h : n < 16) : (hexDigit n != '\n') = true := by
  interval_cases n <;> decide

theorem escChar_nlFree (c : Char) : (escChar c).all (fun x => x != '\n') = true := by
  unfold escChar
  split_ifs with h1 h2 h3 h4 h5 h6
  · decide
  · decide
  · decide
  · decide
  · decide
  · simp only [List.all_cons, Bool.and_eq_true]
    refine ⟨by decide, by decide, by decide, by decide, ?_, ?_, by decide⟩
    · exact hexDigit_ne_nl _ (Nat.div_lt_of_lt_mul (by omega))
    · exact hexDigit_ne_nl _ (Nat.mod_lt _ (by norm_num))
  · simp only [List.all_cons, List.all_nil, Bool.and_true]
    exact bne_iff_ne.mpr h3

theorem escapeStr_nlFree (s : String) :
    ((escapeStr s).data).all (fun c => c != '\n') = true := by
  show ((s.data.map escChar).flatten).all (fun c => c != '\n') = true
  rw [List.all_flatten]
  rw [List.all_eq_true]
  intro x hx
  obtain ⟨c, _, hc⟩ := List.mem_map.mp hx
  rw [← hc]
  exact escChar_nlFree c

theorem quoteStr_nlFree (s : String) :
    ((quoteStr s).data).all (fun c => c != '\n') = true := by
  show ((("\"" ++ escapeStr s) ++ "\"").data).all (fun c => c != '\n') = true
  rw [data_append, data_append]
  simp only [List.all_append, Bool.and_eq_true]
  exact ⟨⟨by decide, escapeStr_nlFree s⟩, by decide⟩

theorem spacesStr_nlFree (n : Nat) :
    ((spacesStr n).data).all (fun c => c != '\n') = true := by
  show (List.replicate n ' ').all (fun c => c != '\n') = true
  rw [List.all_eq_true]
  intro c hc
  rw [List.eq_of_mem_replicate hc]
  decide

theorem indentStr_nlFree (o : JOpts) (d : Nat) :
    ((indentStr o d).data).all (fun c => c != '\n') = true := by
  unfold indentStr
  split_ifs
  · exact spacesStr_nlFree _
  · rfl

theorem splitNL_no_nl (l : List Char) (h : l.all (fun c => c != '\n') = true) :
    splitNL l = [l] := by
  induction l with
  | nil => rfl
  | cons c r ih =>
      simp only [List.all_cons, Bool.and_eq_true, bne_iff_ne, ne_eq] at h
      have hr := ih h.2
      simp only [splitNL, if_neg h.1, hr]
      rfl

theorem splitNL_append_nl (a b : List Char) (h : a.all (fun c => c != '\n') = true) :
    splitNL (a ++ '\n' :: b) = a :: splitNL b := by
  induction a with
  | nil => simp [splitNL]
  | cons c r ih =>
      simp only [List.all_cons, Bool.and_eq_true, bne_iff_ne, ne_eq] at h
      have hr := ih h.2
      simp only [List.cons_append, splitNL, if_neg h.1, List.append_eq, hr]
      rfl

/-- Fragments of an emission step contain no newline. -/
def nlFrag : Seg → Bool
  | Seg.frag s => s.data.all (fun c => c != '\n')
  | Seg.brk _ => true

/-- All fragments of an emission sequence are newline-free. -/
def nlSegs (l : List Seg) : Bool := l.all nlFrag

/-- A fragment fit to start a line: nonempty with a non-space head. -/
def fragGoodStr (s : String) : Bool :=
  match s.data.head? with
  | some c => c != ' '
  | none => false

/-- Every break is immediately followed by a line-starting fragment. -/
def brksOk : List Seg → Bool
  | [] => true
  | Seg.brk _ :: r =>
      (match r with
       | Seg.frag s :: _ => fragGoodStr s
       | _ => false) && brksOk r
  | Seg.frag _ :: r => brksOk r

/-- The sequence begins with a line-starting fragment. -/
def headGood : List Seg → Bool
  | Seg.frag s :: _ => fragGoodStr s
  | _ => false

/-- The sequence does not end in a break. -/
def endsFrag : List Seg → Bool
  | [] => true
  | [Seg.frag _] => true
  | [Seg.brk _] => false
  | _ :: r => endsFrag r

/-- Number of breaks of an emission sequence. -/
def brkCount : List Seg → Nat
  | [] => 0
  | Seg.brk _ :: r => brkCount r + 1
  | Seg.frag _ :: r => brkCount r

theorem nlSegs_append (a b : List Seg) :
    nlSegs (a ++ b) = (nlSegs a && nlSegs b) := by
  simp [nlSegs, List.all_append]

theorem brkCount_append (a b : List Seg) :
    brkCount (a ++ b) = brkCount a + brkCount b := by
  induction a with
  | nil => simp [brkCount]
  | cons x r ih =>
      cases x with
      | frag s => simpa [brkCount] using ih
      | brk d => simp [brkCount, ih]; omega

theorem endsFrag_append (a b : List Seg) (hb : b ≠ []) :
    endsFrag (a ++ b) = endsFrag b := by
  induction a with
  | nil => rfl
  | cons x r ih =>
      cases hrb : r ++ b with
      | nil => exact absurd (List.append_eq_nil.mp hrb).2 hb
      | cons y ys =>
          have h1 : endsFrag (x :: r ++ b) = endsFrag (r ++ b) := by
            rw [List.cons_append, hrb]
            cases x <;> cases y <;> rfl
          rw [h1, ih]

theorem brksOk_cons_frag (s : String) (r : List Seg) :
    brksOk (Seg.frag s :: r) = brksOk r := rfl

theorem brksOk_append (a b : List Seg) (ha : brksOk a = true) (hb : brksOk b = true)
    (hend : endsFrag a = true) : brksOk (a ++ b) = true := by
  induction a with
  | nil => simpa using hb
  | cons x r ih =>
      cases x with
      | frag s =>
          rw [List.cons_append, brksOk_cons_frag]
          cases r with
          | nil => simpa using hb
          | cons y ys =>
              refine ih ?_ ?_
              · simpa [brksOk_cons_frag] using ha
              · have : endsFrag (Seg.frag s :: y :: ys) = endsFrag (y :: ys) := by
                  cases y <;> rfl
                rw [this] at hend
                exact hend
      | brk d =>
          simp only [brksOk, Bool.and_eq_true] at ha
          cases r with
          | nil => simp at ha
          | cons y ys =>
              cases y with
              | brk d2 => simp at ha
              | frag s =>
                  have hend2 : endsFrag (Seg.frag s :: ys) = true := by
                    have : endsFrag (Seg.brk d :: Seg.frag s :: ys) =
                        endsFrag (Seg.frag s :: ys) := rfl
                    rw [this] at hend
                    exact hend
                  have hrest := ih ha.2 hend2
                  simp only [List.cons_append, brksOk, Bool.and_eq_true]
                  exact ⟨ha.1, hrest⟩

theorem lineRecs_first (segs : List Seg) :
    ∀ d cur, ∃ c rest, lineRecs d cur segs = (d, c) :: rest := by
  induction segs with
  | nil => intro d cur; exact ⟨cur, [], rfl⟩
  | cons x r ih =>
      intro d cur
      cases x with
      | frag s => exact ih d (cur ++ s)
      | brk d2 =>
          obtain ⟨c, rest, _⟩ := ih d2 ""
          exact ⟨cur, lineRecs d2 "" r, rfl⟩

theorem lineRecs_length (segs : List Seg) :
    ∀ d cur, (lineRecs d cur segs).length = brkCount segs + 1 := by
  induction segs with
  | nil => intro d cur; rfl
  | cons x r ih =>
      intro d cur
      cases x with
      | frag s => simpa [lineRecs, brkCount] using ih d (cur ++ s)
      | brk d2 =>
          simp only [lineRecs, List.length_cons, ih d2 "", brkCount]

/-- Apply a function to the first line's content only. -/
def mapFirstStr (f : String → String) : List (Nat × String) → List (Nat × String)
  | [] => []
  | p :: r => (p.1, f p.2) :: r

theorem lineRecs_shift (segs : List Seg) :
    ∀ d a b, lineRecs d (a ++ b) segs =
      mapFirstStr (fun s => a ++ s) (lineRecs d b segs) := by
  induction segs with
  | nil => intro d a b; rfl
  | cons x r ih =>
      intro d a b
      cases x with
      | frag s =>
          show lineRecs d ((a ++ b) ++ s) r = mapFirstStr _ (lineRecs d (b ++ s) r)
          rw [String.append_assoc]
          exact ih d a (b ++ s)
      | brk d2 => rfl

theorem splitNL_segs (o : JOpts) (segs : List Seg) :
    ∀ d cur, nlSegs segs = true → (cur.data.all (fun c => c != '\n')) = true →
      splitNL ((cur ++ segsToString o segs)).data =
        (match lineRecs d cur segs with
         | [] => []
         | p :: r => p.2.data :: r.map (fun q => ((indentStr o q.1 ++ q.2)).data)) := by
  induction segs with
  | nil =>
      intro d cur _ hcur
      rw [show segsToString o [] = "" from rfl, String.append_empty,
        splitNL_no_nl cur.data hcur]
      rfl
  | cons x r ih =>
      intro d cur hnl hcur
      cases x with
      | frag s =>
          have hs : nlFrag (Seg.frag s) = true ∧ nlSegs r = true := by
            simpa [nlSegs, List.all_cons] using hnl
          have hss : (s.data.all (fun c => c != '\n')) = true := hs.1
          have hcur2 : ((cur ++ s).data.all (fun c => c != '\n')) = true := by
            rw [data_append, List.all_append, hcur, hss]
            rfl
          have heq : cur ++ segsToString o (Seg.frag s :: r) =
              (cur ++ s) ++ segsToString o r := by
            rw [String.append_assoc]
            rfl
          rw [heq, ih d (cur ++ s) hs.2 hcur2]
          rfl
      | brk d2 =>
          have hs : nlSegs r = true := by
            simpa [nlSegs, List.all_cons, nlFrag] using hnl
          have heq : (cur ++ segsToString o (Seg.brk d2 :: r)).data =
              cur.data ++ '\n' :: ((indentStr o d2 ++ segsToString o r)).data := by
            rw [data_append]
            rfl
          rw [heq, splitNL_append_nl cur.data _ hcur]
          have hind := indentStr_nlFree o d2
          rw [ih d2 (indentStr o d2) hs hind]
          obtain ⟨c, rest, hlr⟩ := lineRecs_first r d2 ""
          have hshift : lineRecs d2 (indentStr o d2) r =
              (d2, indentStr o d2 ++ c) :: rest := by
            have h0 : lineRecs d2 (indentStr o d2 ++ "") r =
                mapFirstStr (fun s => indentStr o d2 ++ s) (lineRecs d2 "" r) :=
              lineRecs_shift r d2 (indentStr o d2) ""
            rw [String.append_empty] at h0
            rw [h0, hlr]
            rfl
          rw [hshift]
          simp only [lineRecs, hlr, List.map_cons]

theorem nlFree_append (a b : String)
    (ha : (a.data).all (fun c => c != '\n') = true)
    (hb : (b.data).all (fun c => c != '\n') = true) :
    ((a ++ b).data).all (fun c => c != '\n') = true := by
  rw [data_append, List.all_append, ha, hb]
  rfl

theorem endsFrag_cons (x : Seg) (l : List Seg) (h : l ≠ []) :
    endsFrag (x :: l) = endsFrag l := by
  cases l with
  | nil => exact absurd rfl h
  | cons y ys => cases x <;> cases y <;> rfl

theorem endsFrag_append_both (a b : List Seg) (ha : endsFrag a = true)
    (hb : endsFrag b = true) : endsFrag (a ++ b) = true := by
  cases b with
  | nil => rw [List.append_nil]; exact ha
  | cons y ys => rw [endsFrag_append a (y :: ys) (by simp)]; exact hb

theorem nlSegs_append_both (a b : List Seg) (ha : nlSegs a = true)
    (hb : nlSegs b = true) : nlSegs (a ++ b) = true := by
  rw [nlSegs_append, ha, hb]
  rfl

theorem nlSegs_cons (x : Seg) (l : List Seg) (hx : nlFrag x = true)
    (hl : nlSegs l = true) : nlSegs (x :: l) = true := by
  show (List.all (x :: l) nlFrag) = true
  rw [List.all_cons, hx]
  rw [show l.all nlFrag = nlSegs l from rfl, hl]
  rfl

theorem fragGoodStr_of_head (s : String) (c : Char) (h : s.data.head? = some c)
    (hc : (c != ' ') = true) : fragGoodStr s = true := by
  cases hd : s.data with
  | nil => rw [hd] at h; exact absurd h (by simp)
  | cons c0 rest =>
      rw [hd] at h
      simp only [List.head?_cons, Option.some_inj] at h
      subst h
      unfold fragGoodStr
      rw [hd]
      exact hc

theorem quoteStr_data (s : String) :
    (quoteStr s).data = '"' :: ((escapeStr s).data ++ ['"']) := by
  show ((("\"" ++ escapeStr s) ++ "\"").data) = _
  rw [data_append, data_append]
  rfl

theorem fragGood_quote_append (k : String) (x : String) :
    fragGoodStr (quoteStr k ++ x) = true := by
  apply fragGoodStr_of_head _ '"'
  · exact headChar_append_left (quoteStr k) x '"' _ (quoteStr_data k)
  · decide

theorem fragGood_quote (k : String) : fragGoodStr (quoteStr k) = true := by
  apply fragGoodStr_of_head _ '"'
  · rw [quoteStr_data]; rfl
  · decide

theorem headGood_decomp (segs : List Seg) (h : headGood segs = true) :
    ∃ s tail, segs = Seg.frag s :: tail ∧ fragGoodStr s = true := by
  cases segs with
  | nil => simp [headGood] at h
  | cons x r =>
      cases x with
      | frag s => exact ⟨s, r, rfl, h⟩
      | brk d => simp [headGood] at h

theorem headGood_ne_nil (segs : List Seg) (h : headGood segs = true) : segs ≠ [] := by
  intro he
  rw [he] at h
  simp [headGood] at h

theorem nlFrag_quote_append (k x : String)
    (hx : (x.data).all (fun c => c != '\n') = true) :
    nlFrag (Seg.frag (quoteStr k ++ x)) = true := by
  show (((quoteStr k ++ x).data).all (fun c => c != '\n')) = true
  exact nlFree_append _ _ (quoteStr_nlFree k) hx

theorem brksOk_commaIf (b : Bool) : brksOk (commaIf b) = true := by cases b <;> rfl

theorem endsFrag_commaIf (b : Bool) : endsFrag (commaIf b) = true := by cases b <;> rfl

theorem nlSegs_commaIf (b : Bool) : nlSegs (commaIf b) = true := by cases b <;> rfl

theorem brksOk_brk_frag (d : Nat) (s : String) (y : List Seg) :
    brksOk (Seg.brk d :: Seg.frag s :: y) =
      (fragGoodStr s && brksOk (Seg.frag s :: y)) := rfl

theorem brksOk_brk_cons (d : Nat) (r0 : List Seg) (hhead : headGood r0 = true)
    (hr0 : brksOk r0 = true) : brksOk (Seg.brk d :: r0) = true := by
  obtain ⟨s, tail, hconv, hgood⟩ := headGood_decomp r0 hhead
  subst hconv
  rw [brksOk_brk_frag, hgood, hr0]
  rfl

theorem headGood_append_left (a b : List Seg) (h : headGood a = true) :
    headGood (a ++ b) = true := by
  obtain ⟨s, tail, hconv, hgood⟩ := headGood_decomp a h
  subst hconv
  rw [List.cons_append]
  exact hgood

mutual

theorem convSegs_ok : ∀ (v : CVal) (l : Nat),
    headGood (convSegs v l) = true ∧ brksOk (convSegs v l) = true
    ∧ endsFrag (convSegs v l) = true ∧ nlSegs (convSegs v l) = true
  | CVal.scalar s, l => by
      refine ⟨fragGood_quote s, rfl, rfl, ?_⟩
      exact nlSegs_cons _ [] (quoteStr_nlFree s) rfl
  | CVal.mapping es, l => by
      simp only [convSegs]
      by_cases hleaf : descendantCount (CVal.mapping es) ≤ 1
      · have hl := convLeafEntries_ok es l
        rw [if_pos hleaf]
        refine ⟨rfl, ?_, ?_, ?_⟩
        · rw [brksOk_cons_frag]
          exact brksOk_append _ _ hl.1 rfl hl.2.1
        · have hne : convLeafEntries es l ++ [Seg.frag " \x7d"] ≠ [] := by simp
          rw [endsFrag_cons _ _ hne]
          exact endsFrag_append_both _ _ hl.2.1 rfl
        · exact nlSegs_cons _ _ (by decide)
            (nlSegs_append_both _ _ hl.2.2 (by decide))
      · have hm := convMlEntries_ok es l
        rw [if_neg hleaf]
        refine ⟨rfl, ?_, ?_, ?_⟩
        · rw [brksOk_cons_frag]
          exact brksOk_append _ _ hm.1 rfl hm.2.1
        · have hne : convMlEntries es l ++ [Seg.brk l, Seg.frag "\x7d"] ≠ [] := by simp
          rw [endsFrag_cons _ _ hne]
          exact endsFrag_append_both _ _ hm.2.1 rfl
        · exact nlSegs_cons _ _ (by decide)
            (nlSegs_append_both _ _ hm.2.2 rfl)
  | CVal.sequence items, l => by
      have hi := convMlItems_ok items l
      simp only [convSegs]
      refine ⟨rfl, ?_, ?_, ?_⟩
      · rw [brksOk_cons_frag]
        exact brksOk_append _ _ hi.1 rfl hi.2.1
      · have hne : convMlItems items l ++ [Seg.brk l, Seg.frag "]"] ≠ [] := by simp
        rw [endsFrag_cons _ _ hne]
        exact endsFrag_append_both _ _ hi.2.1 rfl
      · exact nlSegs_cons _ _ (by decide)
          (nlSegs_append_both _ _ hi.2.2 rfl)

theorem convLeafEntries_ok : ∀ (es : List (String × CVal)) (l : Nat),
    brksOk (convLeafEntries es l) = true ∧ endsFrag (convLeafEntries es l) = true
    ∧ nlSegs (convLeafEntries es l) = true
  | [], _ => ⟨rfl, rfl, rfl⟩
  | (k, v) :: r, l => by
      have hv := convSegs_ok v (l + 1)
      have hr := convLeafEntries_ok r l
      have hcne := headGood_ne_nil _ hv.1
      simp only [convLeafEntries]
      have hX : (convSegs v (l + 1) ++ commaIf r.isEmpty) ++ convLeafEntries r l ≠ [] := by
        simp only [ne_eq, List.append_eq_nil, not_and]
        intro h
        exact absurd h.1 hcne
      refine ⟨?_, ?_, ?_⟩
      · rw [brksOk_cons_frag]
        exact brksOk_append _ _
          (brksOk_append _ _ hv.2.1 (brksOk_commaIf _) hv.2.2.1)
          hr.1
          (endsFrag_append_both _ _ hv.2.2.1 (endsFrag_commaIf _))
      · rw [endsFrag_cons _ _ hX]
        exact endsFrag_append_both _ _
          (endsFrag_append_both _ _ hv.2.2.1 (endsFrag_commaIf _)) hr.2.1
      · refine nlSegs_cons _ _ ?_
          (nlSegs_append_both _ _
            (nlSegs_append_both _ _ hv.2.2.2 (nlSegs_commaIf _)) hr.2.2)
        show (((" " ++ quoteStr k ++ ": ").data).all (fun c => c != '\n')) = true
        exact nlFree_append _ _ (nlFree_append _ _ (by decide) (quoteStr_nlFree k))
          (by decide)

theorem convMlEntries_ok : ∀ (es : List (String × CVal)) (l : Nat),
    brksOk (convMlEntries es l) = true ∧ endsFrag (convMlEntries es l) = true
    ∧ nlSegs (convMlEntries es l) = true
  | [], _ => ⟨rfl, rfl, rfl⟩
  | (k, v) :: r, l => by
      have hv := convSegs_ok v (l + 1)
      have hr := convMlEntries_ok r l
      have hcne := headGood_ne_nil _ hv.1
      simp only [convMlEntries]
      have hX : (convSegs v (l + 1) ++ commaIf r.isEmpty) ++ convMlEntries r l ≠ [] := by
        simp only [ne_eq, List.append_eq_nil, not_and]
        intro h
        exact absurd h.1 hcne
      refine ⟨?_, ?_, ?_⟩
      · apply brksOk_brk_cons
        · rw [show (Seg.frag (quoteStr k ++ ": ") ::
            ((convSegs v (l + 1) ++ commaIf r.isEmpty) ++ convMlEntries r l)) =
              [Seg.frag (quoteStr k ++ ": ")] ++
                ((convSegs v (l + 1) ++ commaIf r.isEmpty) ++ convMlEntries r l)
            from rfl]
          apply headGood_append_left
          exact fragGood_quote_append k ": "
        · rw [brksOk_cons_frag]
          exact brksOk_append _ _
            (brksOk_append _ _ hv.2.1 (brksOk_commaIf _) hv.2.2.1)
            hr.1
            (endsFrag_append_both _ _ hv.2.2.1 (endsFrag_commaIf _))
      · rw [endsFrag_cons _ _ (by simp), endsFrag_cons _ _ hX]
        exact endsFrag_append_both _ _
          (endsFrag_append_both _ _ hv.2.2.1 (endsFrag_commaIf _)) hr.2.1
      · refine nlSegs_cons _ _ rfl (nlSegs_cons _ _ ?_
          (nlSegs_append_both _ _
            (nlSegs_append_both _ _ hv.2.2.2 (nlSegs_commaIf _)) hr.2.2))
        exact nlFrag_quote_append k ": " (by decide)

theorem convMlItems_ok : ∀ (items : List CVal) (l : Nat),
    brksOk (convMlItems items l) = true ∧ endsFrag (convMlItems items l) = true
    ∧ nlSegs (convMlItems items l) = true
  | [], _ => ⟨rfl, rfl, rfl⟩
  | v :: r, l => by
      have hv := convSegs_ok v (l + 1)
      have hr := convMlItems_ok r l
      have hcne := headGood_ne_nil _ hv.1
      simp only [convMlItems]
      have hX : (convSegs v (l + 1) ++ commaIf r.isEmpty) ++ convMlItems r l ≠ [] := by
        simp only [ne_eq, List.append_eq_nil, not_and]
        intro h
        exact absurd h.1 hcne
      refine ⟨?_, ?_, ?_⟩
      · apply brksOk_brk_cons
        · exact headGood_append_left _ _ (headGood_append_left _ _ hv.1)
        · exact brksOk_append _ _
            (brksOk_append _ _ hv.2.1 (brksOk_commaIf _) hv.2.2.1)
            hr.1
            (endsFrag_append_both _ _ hv.2.2.1 (endsFrag_commaIf _))
      · rw [endsFrag_cons _ _ hX]
        exact endsFrag_append_both _ _
          (endsFrag_append_both _ _ hv.2.2.1 (endsFrag_commaIf _)) hr.2.1
      · exact nlSegs_cons _ _ rfl
          (nlSegs_append_both _ _
            (nlSegs_append_both _ _ hv.2.2.2 (nlSegs_commaIf _)) hr.2.2)

end

theorem fragGoodStr_decomp (s : String) (h : fragGoodStr s = true) :
    ∃ c, s.data.head? = some c ∧ c ≠ ' ' := by
  unfold fragGoodStr at h
  split at h
  · next c heq => exact ⟨c, heq, by simpa using h⟩
  · exact absurd h (by simp)

theorem head?_append_of_some (a b : String) (c : Char) (h : a.data.head? = some c) :
    (a ++ b).data.head? = some c := by
  cases hd : a.data with
  | nil => rw [hd] at h; exact absurd h (by simp)
  | cons c0 rest =>
      rw [hd] at h
      simp only [List.head?_cons, Option.some_inj] at h
      subst h
      exact headChar_append_left a b c0 rest hd

theorem brksOk_brk_nil (d : Nat) : brksOk [Seg.brk d] = false := rfl

theorem brksOk_brk_brk (d d2 : Nat) (ys : List Seg) :
    brksOk (Seg.brk d :: Seg.brk d2 :: ys) = false := rfl

theorem lineRecs_all_good (segs : List Seg) :
    ∀ d cur, brksOk segs = true → nlSegs segs = true →
      (cur.data.all (fun c => c != '\n')) = true →
      ((∃ c, cur.data.head? = some c ∧ c ≠ ' ')
        ∨ (cur.data.head? = none ∧ headGood segs = true)) →
      ∀ p ∈ lineRecs d cur segs, p.2 ≠ "" ∧ p.2.data.head? ≠ some ' '
        ∧ (p.2.data.all (fun c => c != '\n')) = true := by
  induction segs with
  | nil =>
      intro d cur _ _ hcur hhead p hp
      simp only [lineRecs, List.mem_singleton] at hp
      subst hp
      rcases hhead with ⟨c, hc, hcs⟩ | ⟨_, hg⟩
      · refine ⟨?_, ?_, hcur⟩
        · intro he
          have he2 : cur = "" := he
          rw [he2] at hc
          exact absurd hc (by simp)
        · show cur.data.head? ≠ some ' '
          rw [hc]
          simp [hcs]
      · simp [headGood] at hg
  | cons x r ih =>
      intro d cur hbr hnl hcur hhead
      cases x with
      | frag s =>
          have hs : nlFrag (Seg.frag s) = true ∧ nlSegs r = true := by
            simpa [nlSegs, List.all_cons] using hnl
          have hbr2 : brksOk r = true := by
            rw [brksOk_cons_frag] at hbr
            exact hbr
          intro p hp
          refine ih d (cur ++ s) hbr2 hs.2 (nlFree_append _ _ hcur hs.1) ?_ p hp
          rcases hhead with ⟨c, hc, hcs⟩ | ⟨hc, hg⟩
          · exact Or.inl ⟨c, head?_append_of_some cur s c hc, hcs⟩
          · have hnil : cur.data = [] := List.head?_eq_none_iff.mp hc
            have hg2 : fragGoodStr s = true := hg
            obtain ⟨c, hsc, hcs⟩ := fragGoodStr_decomp s hg2
            refine Or.inl ⟨c, ?_, hcs⟩
            rw [data_append, hnil, List.nil_append]
            exact hsc
      | brk d2 =>
          have hnlr : nlSegs r = true := by
            simpa [nlSegs, List.all_cons, nlFrag] using hnl
          intro p hp
          simp only [lineRecs] at hp
          rcases List.mem_cons.mp hp with hp1 | hp2
          · subst hp1
            rcases hhead with ⟨c, hc, hcs⟩ | ⟨_, hg⟩
            · refine ⟨?_, ?_, hcur⟩
              · intro he
                have he2 : cur = "" := he
                rw [he2] at hc
                exact absurd hc (by simp)
              · show cur.data.head? ≠ some ' '
                rw [hc]
                simp [hcs]
            · simp [headGood] at hg
          · cases r with
            | nil =>
                rw [brksOk_brk_nil] at hbr
                exact absurd hbr (by simp)
            | cons y ys =>
                cases y with
                | brk d3 =>
                    rw [brksOk_brk_brk] at hbr
                    exact absurd hbr (by simp)
                | frag s =>
                    have hbrr : fragGoodStr s = true
                        ∧ brksOk (Seg.frag s :: ys) = true := by
                      rw [brksOk_brk_frag, Bool.and_eq_true] at hbr
                      exact hbr
                    exact ih d2 "" hbrr.2 hnlr rfl (Or.inr ⟨rfl, hbrr.1⟩) p hp2

theorem renderLines_good (v : CVal) :
    ∀ p ∈ renderLines v, p.2 ≠ "" ∧ p.2.data.head? ≠ some ' '
      ∧ (p.2.data.all (fun c => c != '\n')) = true := by
  intro p hp
  have hok := convSegs_ok v 0
  exact lineRecs_all_good (convSegs v 0) 0 "" hok.2.1 hok.2.2.2 rfl
    (Or.inr ⟨rfl, hok.1⟩) p hp

theorem render_splitNL (v : CVal) (o : JOpts) :
    splitNL (render v o).data =
      (renderLines v).map (fun p => ((indentStr o p.1 ++ p.2)).data) := by
  have h := splitNL_segs o (convSegs v 0) 0 (indentStr o 0)
    (convSegs_ok v 0).2.2.2 (indentStr_nlFree o 0)
  rw [show render v o = indentStr o 0 ++ segsToString o (convSegs v 0) from rfl, h]
  obtain ⟨c, rest, hlr⟩ := lineRecs_first (convSegs v 0) 0 ""
  have hshift : lineRecs 0 (indentStr o 0) (convSegs v 0) =
      (0, indentStr o 0 ++ c) :: rest := by
    have h0 := lineRecs_shift (convSegs v 0) 0 (indentStr o 0) ""
    rw [String.append_empty] at h0
    rw [h0, hlr]
    rfl
  rw [hshift, show renderLines v = lineRecs 0 "" (convSegs v 0) from rfl, hlr,
    List.map_cons]

theorem indentStr_eq (o : JOpts) (d : Nat) :
    indentStr o d = spacesStr ((max 0 ((d : Int) + o.offset)).toNat * o.indentUnit) := by
  unfold indentStr
  by_cases h : 0 < o.offset + (d : Int)
  · rw [if_pos h]
    have : (o.offset + (d : Int)).toNat = (max 0 ((d : Int) + o.offset)).toNat := by
      omega
    rw [this]
  · rw [if_neg h]
    have : (max 0 ((d : Int) + o.offset)).toNat = 0 := by omega
    rw [this, Nat.zero_mul]
    rfl

/-- C6: In pretty mode, the lines of the rendered text (split at newline
characters) are exactly the renderer's line records, each prefixed by
precisely `max 0 (depth + offset) * indentUnit` space characters (so a
sufficiently negative offset yields fully left-flushed output and the
indentation is never negative), and every line's own content is nonempty,
starts with a non-space character, and contains no newline — the
indentation prefix is exact. -/
theorem claim_C6 (v : CVal) (o : JOpts) :
    splitNL (render v o).data =
      (renderLines v).map (fun p => ((indentStr o p.1 ++ p.2)).data)
    ∧ (∀ d : Nat, indentStr o d =
        spacesStr ((max 0 ((d : Int) + o.offset)).toNat * o.indentUnit))
    ∧ ((renderLines v).all (fun p =>
        (!(p.2 == "")) && (!(p.2.data.head? == some ' '))
          && p.2.data.all (fun c => c != '\n'))) = true := by
  refine ⟨render_splitNL v o, fun d => indentStr_eq o d, ?_⟩
  rw [List.all_eq_true]
  intro p hp
  obtain ⟨h1, h2, h3⟩ := renderLines_good v p hp
  simp only [Bool.and_eq_true, Bool.not_eq_true', beq_eq_false_iff_ne, ne_eq]
  exact ⟨⟨h1, h2⟩, h3⟩

theorem brkCount_cons_frag (s : String) (r : List Seg) :
    brkCount (Seg.frag s :: r) = brkCount r := rfl

theorem brkCount_cons_brk (d : Nat) (r : List Seg) :
    brkCount (Seg.brk d :: r) = brkCount r + 1 := rfl

theorem brkCount_commaIf (b : Bool) : brkCount (commaIf b) = 0 := by cases b <;> rfl

mutual

theorem brkCount_convSegs : ∀ (v : CVal) (l : Nat),
    brkCount (convSegs v l) + 1 = lineSpan v
  | CVal.scalar s, l => rfl
  | CVal.mapping es, l => by
      simp only [convSegs, lineSpan]
      by_cases hleaf : descendantCount (CVal.mapping es) ≤ 1
      · rw [if_pos hleaf, if_pos hleaf, brkCount_cons_frag, brkCount_append,
          brkCount_convLeafEntries es l]
        show lsLeaf es + 0 + 1 = 1 + lsLeaf es
        omega
      · rw [if_neg hleaf, if_neg hleaf, brkCount_cons_frag, brkCount_append,
          brkCount_convMlEntries es l]
        show lsMl es + 1 + 1 = 2 + lsMl es
        omega
  | CVal.sequence items, l => by
      simp only [convSegs, lineSpan]
      rw [brkCount_cons_frag, brkCount_append, brkCount_convMlItems items l]
      show lsItems items + 1 + 1 = 2 + lsItems items
      omega

theorem brkCount_convLeafEntries : ∀ (es : List (String × CVal)) (l : Nat),
    brkCount (convLeafEntries es l) = lsLeaf es
  | [], _ => rfl
  | (k, v) :: r, l => by
      have hv := brkCount_convSegs v (l + 1)
      have hr := brkCount_convLeafEntries r l
      simp only [convLeafEntries, lsLeaf]
      rw [brkCount_cons_frag, brkCount_append, brkCount_append, brkCount_commaIf, hr]
      omega

theorem brkCount_convMlEntries : ∀ (es : List (String × CVal)) (l : Nat),
    brkCount (convMlEntries es l) = lsMl es
  | [], _ => rfl
  | (k, v) :: r, l => by
      have hv := brkCount_convSegs v (l + 1)
      have hr := brkCount_convMlEntries r l
      simp only [convMlEntries, lsMl]
      rw [brkCount_cons_brk, brkCount_cons_frag, brkCount_append, brkCount_append,
        brkCount_commaIf, hr]
      omega

theorem brkCount_convMlItems : ∀ (items : List CVal) (l : Nat),
    brkCount (convMlItems items l) = lsItems items
  | [], _ => rfl
  | v :: r, l => by
      have hv := brkCount_convSegs v (l + 1)
      have hr := brkCount_convMlItems r l
      simp only [convMlItems, lsItems]
      rw [brkCount_cons_brk, brkCount_append, brkCount_append, brkCount_commaIf, hr]
      omega

end

/-- C9 (amended): the pretty renderer gives every Sequence item and every
entry of a non-leaf Mapping its own line, while a Mapping with at most one
scalar descendant renders inline on its current line: the number of output
lines equals `lineSpan`, which counts one line per bracket and per
entry/item of non-leaf Mappings and Sequences, and zero extra lines for
entries of leaf Mappings. -/
theorem claim_C9 (v : CVal) : (renderLines v).length = lineSpan v := by
  rw [show renderLines v = lineRecs 0 "" (convSegs v 0) from rfl,
    lineRecs_length (convSegs v 0) 0 ""]
  exact brkCount_convSegs v 0

def exNsVal : CVal := CVal.mapping
  [("@xmlns", CVal.scalar "myns"), ("foo", CVal.mapping []),
   ("bar", CVal.mapping [("@xmlns", CVal.scalar "")])]

def exOpts : JOpts := { offset := 0, indentUnit := 2 }

/-- C9 counterexample: rendering the Canonical Value of the `namespaces`
JSONWriter test in pretty mode puts the Mapping entry keyed `@xmlns` of
the leaf Mapping under `bar` on the same line as its parent entry — the
output has exactly five lines, and no line's content begins with that
entry's rendering — so not every Mapping entry starts its own line. -/
theorem claim_C9_counterexample :
    render exNsVal exOpts =
      "\x7b\n  \"@xmlns\": \"myns\",\n  \"foo\": \x7b \x7d,\n  \"bar\": \x7b \"@xmlns\": \"\" \x7d\n\x7d"
    ∧ (renderLines exNsVal).map (fun p => p.2) =
        ["\x7b", "\"@xmlns\": \"myns\",", "\"foo\": \x7b \x7d,",
         "\"bar\": \x7b \"@xmlns\": \"\" \x7d", "\x7d"]
    ∧ ((renderLines exNsVal).all
        (fun p => !(List.isPrefixOf ("\"@xmlns\": \"\"").data p.2.data))) = true := by
  refine ⟨rfl, rfl, ?_⟩
  decide
